import Mathlib

/-!
Verification development for the `rs-step-merger` repository.

The Lean definitions below are shallow embeddings of the Rust sources under
`src/step-merger/src/`.  Machine integers (`u64`, `usize`) are modelled as
`Nat`; where a `u64` parse can fail on overflow, the bound `u64::MAX` is
modelled explicitly (see `refStepU`/`updStepU`).  A Rust function that can
panic (e.g. `Option::unwrap` on `None`) is modelled as a function into
`Option`, with `none` standing for the panic.
-/

namespace StepMerger

/-- The apostrophe character `'`, used as the STEP string delimiter. -/
def quoteChar : Char := Char.ofNat 39

/-- A single entry in a STEP file (`StepEntry` in `src/step/mod.rs`):
an id and the definition string. -/
structure StepEntry where
  id : Nat
  definition : String
deriving DecidableEq, Repr

/-- Scanner modes of the reference parser (`enum Mode` in `src/step/mod.rs`). -/
inductive Mode where
  | definition
  | reference
  | string
deriving DecidableEq, Repr

/-! ## The `get_references` scanner (`StepEntry::get_references`)

The Rust scanner collects decimal digits of a reference into a string buffer
and calls `buffer.parse::<u64>().unwrap()` when the reference ends.  We model
the buffer by the number it would parse to: `none` is the empty buffer (whose
parse panics), `some v` is a non-empty buffer with value `v`. -/

/-- Numeric value of an ASCII digit character. -/
def digitVal (c : Char) : Nat := c.toNat - 48

/-- Push one digit character onto the (modelled) reference digit buffer. -/
def pushDigit (b : Option Nat) (c : Char) : Option Nat :=
  some (10 * b.getD 0 + digitVal c)

/-- State of the `get_references` scanner: current mode, digit buffer and
the list of reference ids collected so far. -/
structure RefScan where
  mode : Mode
  buffer : Option Nat
  result : List Nat
deriving DecidableEq, Repr

/-- One character step of `StepEntry::get_references` (src/step/mod.rs,
lines 112-153).  `none` models the panic of `buffer.parse().unwrap()` on an
empty buffer.  This step models the parse of a non-empty buffer as always
succeeding; `refStepU` below refines it with the `PosOverflow` panic of
`u64::from_str`, and the two agree on every run whose flushed values fit in
`u64` (`refRunU_eq_refRun`). -/
def refStep (st : RefScan) (c : Char) : Option RefScan :=
  match st.mode with
  | .definition =>
      if c = '#' then some { st with mode := .reference }
      else if c = quoteChar then some { st with mode := .string }
      else some st
  | .reference =>
      if c.isDigit then some { st with buffer := pushDigit st.buffer c }
      else
        match st.buffer with
        | none => none
        | some v =>
            let st' : RefScan := { mode := .definition, buffer := none, result := st.result ++ [v] }
            if c = quoteChar then some { st' with mode := .string }
            else if c = '#' then some { st' with mode := .reference }
            else some st'
  | .string =>
      if c = quoteChar then some { st with mode := .definition }
      else some st

/-- `StepEntry::get_references`: the list of `#N` references of the
definition in textual order; `none` models a panic. -/
def getReferences (e : StepEntry) : Option (List Nat) :=
  (e.definition.data.foldlM refStep ⟨.definition, none, []⟩).map (·.result)

/-! ## The `update_references` scanner (`StepEntry::update_references`) -/

/-- Decimal digit characters `0`-`9`. -/
def digitChar : Nat → Char
  | 0 => '0' | 1 => '1' | 2 => '2' | 3 => '3' | 4 => '4'
  | 5 => '5' | 6 => '6' | 7 => '7' | 8 => '8' | _ => '9'

/-- Fuelled digit-string construction; the fuel only bounds the recursion
depth and `natDigits` always supplies enough of it. -/
def natDigitsAux : Nat → Nat → List Char
  | 0, _ => []
  | fuel + 1, n =>
      if n < 10 then [digitChar n]
      else natDigitsAux fuel (n / 10) ++ [digitChar (n % 10)]

/-- The decimal digit string of a natural number, mirroring Rust's
`u64::to_string`. -/
def natDigits (n : Nat) : List Char := natDigitsAux (n + 1) n

/-- State of the `update_references` scanner: current mode, digit buffer and
the rewritten definition text produced so far. -/
structure UpdScan where
  mode : Mode
  buffer : Option Nat
  out : List Char
deriving DecidableEq, Repr

/-- One character step of `StepEntry::update_references` (src/step/mod.rs,
lines 57-109) for the reference-rewriting function `f`.  `none` models the
panic of `buffer.parse().unwrap()` on an empty buffer.  Like `refStep`, the
parse of a non-empty buffer is modelled as always succeeding; `updStepU`
below refines it with the `PosOverflow` panic, and the two agree on every
run whose flushed values fit in `u64` (`updRunU_eq_updRun`). -/
def updStep (f : Nat → Nat) (st : UpdScan) (c : Char) : Option UpdScan :=
  match st.mode with
  | .definition =>
      if c = '#' then some { st with mode := .reference }
      else if c = quoteChar then some { st with mode := .string, out := st.out ++ [c] }
      else some { st with out := st.out ++ [c] }
  | .reference =>
      if c.isDigit then some { st with buffer := pushDigit st.buffer c }
      else
        match st.buffer with
        | none => none
        | some v =>
            let out' := st.out ++ '#' :: natDigits (f v)
            if c = quoteChar then some { mode := .string, buffer := none, out := out' ++ [c] }
            else if c = '#' then some { mode := .reference, buffer := none, out := out' }
            else some { mode := .definition, buffer := none, out := out' ++ [c] }
  | .string =>
      if c = quoteChar then some { st with mode := .definition, out := st.out ++ [c] }
      else some { st with out := st.out ++ [c] }

/-- `StepEntry::update_references`: applies `f` to the entry id and to every
`#N` occurrence of the definition; `none` models a panic.  (The Rust method
mutates `self`; we return the updated entry.) -/
def updateReferences (f : Nat → Nat) (e : StepEntry) : Option StepEntry :=
  (e.definition.data.foldlM (updStep f) ⟨.definition, none, []⟩).map
    (fun st => ⟨f e.id, String.mk st.out⟩)

/-- Mode-only transition of both scanners; total because the mode evolution
does not depend on the digit buffer. -/
def modeStep (m : Mode) (c : Char) : Mode :=
  match m with
  | .definition =>
      if c = '#' then .reference
      else if c = quoteChar then .string
      else .definition
  | .reference =>
      if c.isDigit then .reference
      else if c = quoteChar then .string
      else if c = '#' then .reference
      else .definition
  | .string =>
      if c = quoteChar then .definition
      else .string

/-- The mode in which the reference scan of a definition string ends. -/
def scanFinalMode (s : String) : Mode :=
  s.data.foldl modeStep .definition

/-- The first character, if any, is an ASCII digit. -/
def headDigit : List Char → Bool
  | [] => true
  | c :: _ => c.isDigit

/-- Guard predicate for totality of the reference scanners: every `#` that is
met outside a single-quoted span is immediately followed by an ASCII digit
(a trailing `#` at the very end of the string is harmless). -/
def hashGuard : Mode → List Char → Bool
  | _, [] => true
  | .string, c :: cs => hashGuard (modeStep .string c) cs
  | m, c :: cs =>
      if c = '#' then headDigit cs && hashGuard .reference cs
      else hashGuard (modeStep m c) cs

/-- All `#` occurrences outside quoted spans of the definition are directly
followed by a digit. -/
def hashesGuarded (s : String) : Bool := hashGuard .definition s.data

/-! ### u64-faithful variants of the scanners

The flush `buffer.parse::<u64>().unwrap()` (src/step/mod.rs, lines 81 and
131) panics not only on an empty buffer but also with `PosOverflow` when the
digit run parses to a value above `u64::MAX`.  The step functions below keep
this second panic path; they differ from `refStep`/`updStep` only in the
flush arm. -/

/-- `u64::MAX`, the largest value `u64::from_str` accepts. -/
def u64Max : Nat := 18446744073709551615

/-- One character step of `StepEntry::get_references` with the full panic
behaviour of `buffer.parse::<u64>().unwrap()`: `none` both on an empty
buffer and on a buffer whose value exceeds `u64::MAX` (`PosOverflow`). -/
def refStepU (st : RefScan) (c : Char) : Option RefScan :=
  match st.mode with
  | .definition =>
      if c = '#' then some { st with mode := .reference }
      else if c = quoteChar then some { st with mode := .string }
      else some st
  | .reference =>
      if c.isDigit then some { st with buffer := pushDigit st.buffer c }
      else
        match st.buffer with
        | none => none
        | some v =>
            if v ≤ u64Max then
              let st' : RefScan :=
                { mode := .definition, buffer := none, result := st.result ++ [v] }
              if c = quoteChar then some { st' with mode := .string }
              else if c = '#' then some { st' with mode := .reference }
              else some st'
            else none
  | .string =>
      if c = quoteChar then some { st with mode := .definition }
      else some st

/-- `StepEntry::get_references` with the overflow panic retained. -/
def getReferencesU (e : StepEntry) : Option (List Nat) :=
  (e.definition.data.foldlM refStepU ⟨.definition, none, []⟩).map (·.result)

/-- One character step of `StepEntry::update_references` with the full panic
behaviour of `buffer.parse::<u64>().unwrap()`: `none` both on an empty
buffer and on a buffer whose value exceeds `u64::MAX` (`PosOverflow`). -/
def updStepU (f : Nat → Nat) (st : UpdScan) (c : Char) : Option UpdScan :=
  match st.mode with
  | .definition =>
      if c = '#' then some { st with mode := .reference }
      else if c = quoteChar then some { st with mode := .string, out := st.out ++ [c] }
      else some { st with out := st.out ++ [c] }
  | .reference =>
      if c.isDigit then some { st with buffer := pushDigit st.buffer c }
      else
        match st.buffer with
        | none => none
        | some v =>
            if v ≤ u64Max then
              let out' := st.out ++ '#' :: natDigits (f v)
              if c = quoteChar then some { mode := .string, buffer := none, out := out' ++ [c] }
              else if c = '#' then some { mode := .reference, buffer := none, out := out' }
              else some { mode := .definition, buffer := none, out := out' ++ [c] }
            else none
  | .string =>
      if c = quoteChar then some { st with mode := .definition, out := st.out ++ [c] }
      else some { st with out := st.out ++ [c] }

/-- `StepEntry::update_references` with the overflow panic retained. -/
def updateReferencesU (f : Nat → Nat) (e : StepEntry) : Option StepEntry :=
  (e.definition.data.foldlM (updStepU f) ⟨.definition, none, []⟩).map
    (fun st => ⟨f e.id, String.mk st.out⟩)

/-- Guard for the overflow panic: mirrors the mode and digit-buffer evolution
of both scanners and checks `≤ u64::MAX` exactly at the flush sites (a
pending buffer at the end of the string is never parsed by the code and is
not checked). -/
def u64Guard : Mode → Option Nat → List Char → Bool
  | _, _, [] => true
  | .string, b, c :: cs => u64Guard (modeStep .string c) b cs
  | .definition, b, c :: cs => u64Guard (modeStep .definition c) b cs
  | .reference, b, c :: cs =>
      if c.isDigit then u64Guard .reference (pushDigit b c) cs
      else decide (b.getD 0 ≤ u64Max) && u64Guard (modeStep .reference c) none cs

/-- Every digit run flushed during the reference scan of the definition
parses within `u64`. -/
def refsFit (s : String) : Bool := u64Guard .definition none s.data

/-! ### Decimal digit lemmas -/

theorem digitChar_isDigit {d : Nat} (h : d < 10) : (digitChar d).isDigit = true := by
  interval_cases d <;> decide

theorem digitVal_digitChar {d : Nat} (h : d < 10) : digitVal (digitChar d) = d := by
  interval_cases d <;> decide

theorem natDigitsAux_congr :
    ∀ (n f₁ f₂ : Nat), n < f₁ → n < f₂ → natDigitsAux f₁ n = natDigitsAux f₂ n := by
  intro n
  induction n using Nat.strong_induction_on with
  | _ n ih =>
    intro f₁ f₂ h₁ h₂
    obtain ⟨a, rfl⟩ : ∃ a, f₁ = a + 1 := ⟨f₁ - 1, by omega⟩
    obtain ⟨b, rfl⟩ : ∃ b, f₂ = b + 1 := ⟨f₂ - 1, by omega⟩
    simp only [natDigitsAux]
    by_cases h : n < 10
    · simp [h]
    · have hd : n / 10 < n := Nat.div_lt_self (by omega) (by omega)
      simp only [if_neg h]
      rw [ih (n / 10) hd a b (by omega) (by omega)]

theorem natDigits_of_lt {n : Nat} (h : n < 10) : natDigits n = [digitChar n] := by
  simp [natDigits, natDigitsAux, h]

theorem natDigits_of_ge {n : Nat} (h : 10 ≤ n) :
    natDigits n = natDigits (n / 10) ++ [digitChar (n % 10)] := by
  have hd : n / 10 < n := Nat.div_lt_self (by omega) (by omega)
  rw [natDigits, natDigits]
  show natDigitsAux (n + 1) n = _
  rw [natDigitsAux, if_neg (by omega), natDigitsAux_congr (n / 10) n (n / 10 + 1) hd (by omega)]

theorem natDigits_ne_nil (n : Nat) : natDigits n ≠ [] := by
  by_cases h : n < 10
  · simp [natDigits_of_lt h]
  · simp [natDigits_of_ge (by omega : 10 ≤ n)]

theorem natDigits_all_digits :
    ∀ (n : Nat), ∀ c ∈ natDigits n, c.isDigit = true := by
  intro n
  induction n using Nat.strong_induction_on with
  | _ n ih =>
    by_cases h : n < 10
    · simp [natDigits_of_lt h, digitChar_isDigit h]
    · rw [natDigits_of_ge (by omega)]
      intro c hc
      rcases List.mem_append.mp hc with h1 | h1
      · exact ih (n / 10) (Nat.div_lt_self (by omega) (by omega)) c h1
      · simp only [List.mem_singleton] at h1
        subst h1
        exact digitChar_isDigit (Nat.mod_lt _ (by omega))

/-- The base-10 value accumulated by folding digit characters. -/
def chainVal (a : Nat) (ds : List Char) : Nat :=
  ds.foldl (fun x c => 10 * x + digitVal c) a

theorem chainVal_natDigits : ∀ n : Nat, chainVal 0 (natDigits n) = n := by
  intro n
  induction n using Nat.strong_induction_on with
  | _ n ih =>
    by_cases h : n < 10
    · simp [natDigits_of_lt h, chainVal, digitVal_digitChar h]
    · rw [natDigits_of_ge (by omega)]
      have := ih (n / 10) (Nat.div_lt_self (by omega) (by omega))
      simp only [chainVal, List.foldl_append, List.foldl_cons, List.foldl_nil] at this ⊢
      rw [this, digitVal_digitChar (Nat.mod_lt _ (by omega))]
      omega

theorem foldl_pushDigit (ds : List Char) (hne : ds ≠ []) (b : Option Nat) :
    ds.foldl pushDigit b = some (chainVal (b.getD 0) ds) := by
  induction ds generalizing b with
  | nil => exact absurd rfl hne
  | cons c ds ih =>
    by_cases h : ds = []
    · subst h; simp [pushDigit, chainVal]
    · simp only [List.foldl_cons, ih h, chainVal]
      simp [pushDigit, chainVal]

theorem foldl_pushDigit_natDigits (m : Nat) :
    (natDigits m).foldl pushDigit none = some m := by
  rw [foldl_pushDigit _ (natDigits_ne_nil m)]
  simpa using chainVal_natDigits m

/-! ### Running the scanners over a pure digit string -/

theorem refRun_digits :
    ∀ (ds : List Char) (b : Option Nat) (acc : List Nat),
      (∀ c ∈ ds, c.isDigit = true) →
      ds.foldlM refStep ⟨.reference, b, acc⟩ = some ⟨.reference, ds.foldl pushDigit b, acc⟩ := by
  intro ds
  induction ds with
  | nil => intro b acc _; rfl
  | cons c ds ih =>
    intro b acc h
    have hc : c.isDigit = true := h c (by simp)
    simp only [List.foldlM_cons, refStep, hc, if_true, List.foldl_cons]
    exact ih _ _ (fun d hd => h d (by simp [hd]))

theorem updRun_digits (f : Nat → Nat) :
    ∀ (ds : List Char) (b : Option Nat) (out : List Char),
      (∀ c ∈ ds, c.isDigit = true) →
      ds.foldlM (updStep f) ⟨.reference, b, out⟩ = some ⟨.reference, ds.foldl pushDigit b, out⟩ := by
  intro ds
  induction ds with
  | nil => intro b out _; rfl
  | cons c ds ih =>
    intro b out h
    have hc : c.isDigit = true := h c (by simp)
    simp only [List.foldlM_cons, updStep, hc, if_true, List.foldl_cons]
    exact ih _ _ (fun d hd => h d (by simp [hd]))

/-! ### Simulation between `update_references` and `get_references`

The central invariant ties the rewritten text produced so far by the update
scanner to the result of re-scanning that text with the reference scanner. -/

/-- Re-scan a produced definition text from the initial scanner state. -/
def refRun0 (out : List Char) : Option RefScan :=
  out.foldlM refStep ⟨.definition, none, []⟩

/-- Invariant of the simulation: re-scanning the text written so far yields
the image under `f` of the references collected so far.  While the update
scanner sits inside a reference (mode `.reference`), the last flushed
rewritten reference may still be pending in the re-scan buffer. -/
def SimInv (f : Nat → Nat) (m : Mode) (acc : List Nat) (out : List Char) : Prop :=
  match m with
  | .definition => refRun0 out = some ⟨.definition, none, acc.map f⟩
  | .string => refRun0 out = some ⟨.string, none, acc.map f⟩
  | .reference =>
      refRun0 out = some ⟨.definition, none, acc.map f⟩ ∨
      ∃ pre v, acc = pre ++ [v] ∧ refRun0 out = some ⟨.reference, some (f v), pre.map f⟩

theorem refRun0_append (out Δ : List Char) :
    refRun0 (out ++ Δ) = (refRun0 out).bind (fun st => Δ.foldlM refStep st) := by
  simp [refRun0, List.foldlM_append]

theorem hash_not_digit : ('#').isDigit = false := by decide

theorem quote_not_digit : quoteChar.isDigit = false := by decide

theorem quote_ne_hash : quoteChar ≠ '#' := by decide

/-- After a flush that appends `#` and the digits of `f v`, re-scanning the
extended text parks `f v` in the scanner buffer. -/
theorem refRun0_flush {f : Nat → Nat} {acc : List Nat} {out : List Char}
    (h : SimInv f .reference acc out) (v : Nat) :
    refRun0 (out ++ '#' :: natDigits (f v)) = some ⟨.reference, some (f v), acc.map f⟩ := by
  rcases h with h | ⟨pre, v₀, rfl, h⟩
  · rw [refRun0_append, h]
    simp only [Option.bind_some, List.foldlM_cons, refStep, hash_not_digit]
    norm_num
    rw [refRun_digits _ _ _ (natDigits_all_digits (f v)), foldl_pushDigit_natDigits]
  · rw [refRun0_append, h]
    simp only [Option.bind_some, List.foldlM_cons, refStep, hash_not_digit]
    norm_num [quote_ne_hash.symm]
    rw [refRun_digits _ _ _ (natDigits_all_digits (f v)), foldl_pushDigit_natDigits]

theorem sim (f : Nat → Nat) :
    ∀ (cs : List Char) (m : Mode) (b : Option Nat) (out : List Char) (acc : List Nat),
      SimInv f m acc out →
      (cs.foldlM (updStep f) ⟨m, b, out⟩ = none ∧ cs.foldlM refStep ⟨m, b, acc⟩ = none) ∨
      (∃ (st' : RefScan) (out' : List Char),
        cs.foldlM (updStep f) ⟨m, b, out⟩ = some ⟨st'.mode, st'.buffer, out'⟩ ∧
        cs.foldlM refStep ⟨m, b, acc⟩ = some st' ∧
        SimInv f st'.mode st'.result out') := by
  intro cs
  induction cs with
  | nil =>
    intro m b out acc h
    exact Or.inr ⟨⟨m, b, acc⟩, out, rfl, rfl, h⟩
  | cons c cs ih =>
    intro m b out acc h
    match m with
    | .definition =>
      by_cases hc : c = '#'
      · subst hc
        simp only [List.foldlM_cons, updStep, refStep, if_true]
        exact ih .reference b out acc (Or.inl h)
      · by_cases hq : c = quoteChar
        · subst hq
          simp only [List.foldlM_cons, updStep, refStep, if_neg (by simpa using quote_ne_hash),
            if_pos rfl]
          refine ih .string b (out ++ [quoteChar]) acc ?_
          show refRun0 _ = _
          rw [refRun0_append, h]
          simp [refStep, if_neg (by simpa using quote_ne_hash)]
        · simp only [List.foldlM_cons, updStep, refStep, if_neg hc, if_neg hq]
          refine ih .definition b (out ++ [c]) acc ?_
          show refRun0 _ = _
          rw [refRun0_append, h]
          simp [refStep, if_neg hc, if_neg hq]
    | .string =>
      by_cases hq : c = quoteChar
      · subst hq
        simp only [List.foldlM_cons, updStep, refStep, if_pos rfl]
        refine ih .definition b (out ++ [quoteChar]) acc ?_
        show refRun0 _ = _
        rw [refRun0_append, h]
        simp [refStep]
      · simp only [List.foldlM_cons, updStep, refStep, if_neg hq]
        refine ih .string b (out ++ [c]) acc ?_
        show refRun0 _ = _
        rw [refRun0_append, h]
        simp [refStep, if_neg hq]
    | .reference =>
      by_cases hd : c.isDigit
      · simp only [List.foldlM_cons, updStep, refStep, hd, if_true]
        exact ih .reference (pushDigit b c) out acc h
      · match b with
        | none =>
          simp only [List.foldlM_cons, updStep, refStep, hd, Bool.false_eq_true, if_false]
          simp
        | some v =>
          have hflush := refRun0_flush h v
          by_cases hq : c = quoteChar
          · subst hq
            simp only [List.foldlM_cons, updStep, refStep, quote_not_digit, Bool.false_eq_true,
              if_false, if_pos rfl]
            refine ih .string none (out ++ '#' :: natDigits (f v) ++ [quoteChar]) (acc ++ [v]) ?_
            show refRun0 _ = _
            rw [refRun0_append, hflush]
            simp [refStep, quote_not_digit]
          · by_cases hh : c = '#'
            · subst hh
              simp only [List.foldlM_cons, updStep, refStep, hash_not_digit, Bool.false_eq_true,
                if_false, if_neg (by simpa using quote_ne_hash.symm), if_pos rfl]
              refine ih .reference none (out ++ '#' :: natDigits (f v)) (acc ++ [v]) ?_
              exact Or.inr ⟨acc, v, rfl, hflush⟩
            · simp only [List.foldlM_cons, updStep, refStep, hd, Bool.false_eq_true, if_false,
                if_neg hq, if_neg hh]
              refine ih .definition none (out ++ '#' :: natDigits (f v) ++ [c]) (acc ++ [v]) ?_
              show refRun0 _ = _
              rw [refRun0_append, hflush]
              simp [refStep, hd, if_neg hq, if_neg hh]

/-! ### Case equations for the scanner steps -/

theorem refStep_definition_eq (b : Option Nat) (r : List Nat) (c : Char) :
    refStep ⟨.definition, b, r⟩ c = some ⟨modeStep .definition c, b, r⟩ := by
  by_cases hc : c = '#'
  · subst hc; rfl
  · by_cases hq : c = quoteChar
    · subst hq; rfl
    · simp [refStep, modeStep, hc, hq]

theorem refStep_string_eq (b : Option Nat) (r : List Nat) (c : Char) :
    refStep ⟨.string, b, r⟩ c = some ⟨modeStep .string c, b, r⟩ := by
  by_cases hq : c = quoteChar
  · subst hq; rfl
  · simp [refStep, modeStep, hq]

theorem refStep_digit_eq (b : Option Nat) (r : List Nat) (c : Char) (hd : c.isDigit = true) :
    refStep ⟨.reference, b, r⟩ c = some ⟨.reference, pushDigit b c, r⟩ := by
  simp [refStep, hd]

theorem refStep_flush_eq (v : Nat) (r : List Nat) (c : Char) (hd : c.isDigit = false) :
    refStep ⟨.reference, some v, r⟩ c = some ⟨modeStep .reference c, none, r ++ [v]⟩ := by
  by_cases hq : c = quoteChar
  · subst hq; rfl
  · by_cases hc : c = '#'
    · subst hc; rfl
    · simp [refStep, modeStep, hd, hq, hc]

theorem refStep_panic_eq (r : List Nat) (c : Char) (hd : c.isDigit = false) :
    refStep ⟨.reference, none, r⟩ c = none := by
  simp [refStep, hd]

theorem updStep_definition_hash (f : Nat → Nat) (b : Option Nat) (out : List Char) :
    updStep f ⟨.definition, b, out⟩ '#' = some ⟨.reference, b, out⟩ := rfl

theorem updStep_definition_other (f : Nat → Nat) (b : Option Nat) (out : List Char) (c : Char)
    (hc : c ≠ '#') :
    updStep f ⟨.definition, b, out⟩ c = some ⟨modeStep .definition c, b, out ++ [c]⟩ := by
  by_cases hq : c = quoteChar
  · subst hq; rfl
  · simp [updStep, modeStep, hc, hq]

theorem updStep_string_eq (f : Nat → Nat) (b : Option Nat) (out : List Char) (c : Char) :
    updStep f ⟨.string, b, out⟩ c = some ⟨modeStep .string c, b, out ++ [c]⟩ := by
  by_cases hq : c = quoteChar
  · subst hq; rfl
  · simp [updStep, modeStep, hq]

theorem updStep_digit_eq (f : Nat → Nat) (b : Option Nat) (out : List Char) (c : Char)
    (hd : c.isDigit = true) :
    updStep f ⟨.reference, b, out⟩ c = some ⟨.reference, pushDigit b c, out⟩ := by
  simp [updStep, hd]

theorem updStep_flush_hash (f : Nat → Nat) (v : Nat) (out : List Char) :
    updStep f ⟨.reference, some v, out⟩ '#' =
      some ⟨.reference, none, out ++ '#' :: natDigits (f v)⟩ := rfl

theorem updStep_flush_other (f : Nat → Nat) (v : Nat) (out : List Char) (c : Char)
    (hd : c.isDigit = false) (hc : c ≠ '#') :
    updStep f ⟨.reference, some v, out⟩ c =
      some ⟨modeStep .reference c, none, (out ++ '#' :: natDigits (f v)) ++ [c]⟩ := by
  by_cases hq : c = quoteChar
  · subst hq; rfl
  · simp [updStep, modeStep, hd, hq, hc]

theorem updStep_panic_eq (f : Nat → Nat) (out : List Char) (c : Char) (hd : c.isDigit = false) :
    updStep f ⟨.reference, none, out⟩ c = none := by
  simp [updStep, hd]

theorem modeStep_string_ne_ref (c : Char) : modeStep .string c ≠ .reference := by
  by_cases hq : c = quoteChar <;> simp [modeStep, hq]

theorem modeStep_definition_ref (c : Char) (h : modeStep .definition c = .reference) :
    c = '#' := by
  by_cases hc : c = '#'
  · exact hc
  · by_cases hq : c = quoteChar
    · subst hq; exact absurd h (by decide)
    · simp [modeStep, hc, hq] at h

theorem modeStep_reference_ref (c : Char) (hd : c.isDigit = false)
    (h : modeStep .reference c = .reference) : c = '#' := by
  by_cases hc : c = '#'
  · exact hc
  · by_cases hq : c = quoteChar
    · subst hq; exact absurd h (by decide)
    · simp [modeStep, hd, hc, hq] at h

/-! ### Case equations for the u64-faithful steps -/

theorem refStepU_definition_eq (b : Option Nat) (r : List Nat) (c : Char) :
    refStepU ⟨.definition, b, r⟩ c = some ⟨modeStep .definition c, b, r⟩ := by
  by_cases hc : c = '#'
  · subst hc; rfl
  · by_cases hq : c = quoteChar
    · subst hq; rfl
    · simp [refStepU, modeStep, hc, hq]

theorem refStepU_string_eq (b : Option Nat) (r : List Nat) (c : Char) :
    refStepU ⟨.string, b, r⟩ c = some ⟨modeStep .string c, b, r⟩ := by
  by_cases hq : c = quoteChar
  · subst hq; rfl
  · simp [refStepU, modeStep, hq]

theorem refStepU_digit_eq (b : Option Nat) (r : List Nat) (c : Char) (hd : c.isDigit = true) :
    refStepU ⟨.reference, b, r⟩ c = some ⟨.reference, pushDigit b c, r⟩ := by
  simp [refStepU, hd]

theorem refStepU_flush_eq (v : Nat) (r : List Nat) (c : Char) (hd : c.isDigit = false)
    (hv : v ≤ u64Max) :
    refStepU ⟨.reference, some v, r⟩ c = some ⟨modeStep .reference c, none, r ++ [v]⟩ := by
  by_cases hq : c = quoteChar
  · subst hq
    simp [refStepU, modeStep, hv, (by decide : quoteChar.isDigit = false)]
  · by_cases hc : c = '#'
    · subst hc
      simp [refStepU, modeStep, hv, (by decide : ('#'.isDigit) = false),
        (by decide : ¬ ('#' = quoteChar))]
    · simp [refStepU, modeStep, hd, hq, hc, hv]

theorem refStepU_panic_eq (r : List Nat) (c : Char) (hd : c.isDigit = false) :
    refStepU ⟨.reference, none, r⟩ c = none := by
  simp [refStepU, hd]

theorem refStepU_overflow_eq (v : Nat) (r : List Nat) (c : Char) (hd : c.isDigit = false)
    (hv : ¬ v ≤ u64Max) :
    refStepU ⟨.reference, some v, r⟩ c = none := by
  simp [refStepU, hd, hv]

theorem updStepU_definition_hash (f : Nat → Nat) (b : Option Nat) (out : List Char) :
    updStepU f ⟨.definition, b, out⟩ '#' = some ⟨.reference, b, out⟩ := rfl

theorem updStepU_definition_other (f : Nat → Nat) (b : Option Nat) (out : List Char) (c : Char)
    (hc : c ≠ '#') :
    updStepU f ⟨.definition, b, out⟩ c = some ⟨modeStep .definition c, b, out ++ [c]⟩ := by
  by_cases hq : c = quoteChar
  · subst hq; rfl
  · simp [updStepU, modeStep, hc, hq]

theorem updStepU_string_eq (f : Nat → Nat) (b : Option Nat) (out : List Char) (c : Char) :
    updStepU f ⟨.string, b, out⟩ c = some ⟨modeStep .string c, b, out ++ [c]⟩ := by
  by_cases hq : c = quoteChar
  · subst hq; rfl
  · simp [updStepU, modeStep, hq]

theorem updStepU_digit_eq (f : Nat → Nat) (b : Option Nat) (out : List Char) (c : Char)
    (hd : c.isDigit = true) :
    updStepU f ⟨.reference, b, out⟩ c = some ⟨.reference, pushDigit b c, out⟩ := by
  simp [updStepU, hd]

theorem updStepU_flush_hash (f : Nat → Nat) (v : Nat) (out : List Char) (hv : v ≤ u64Max) :
    updStepU f ⟨.reference, some v, out⟩ '#' =
      some ⟨.reference, none, out ++ '#' :: natDigits (f v)⟩ := by
  simp [updStepU, hv, (by decide : ('#'.isDigit) = false),
    (by decide : ¬ ('#' = quoteChar))]

theorem updStepU_flush_other (f : Nat → Nat) (v : Nat) (out : List Char) (c : Char)
    (hd : c.isDigit = false) (hc : c ≠ '#') (hv : v ≤ u64Max) :
    updStepU f ⟨.reference, some v, out⟩ c =
      some ⟨modeStep .reference c, none, (out ++ '#' :: natDigits (f v)) ++ [c]⟩ := by
  by_cases hq : c = quoteChar
  · subst hq
    simp [updStepU, modeStep, hv, (by decide : quoteChar.isDigit = false)]
  · simp [updStepU, modeStep, hd, hq, hc, hv]

theorem updStepU_panic_eq (f : Nat → Nat) (out : List Char) (c : Char) (hd : c.isDigit = false) :
    updStepU f ⟨.reference, none, out⟩ c = none := by
  simp [updStepU, hd]

/-! ### The scanner mode is a pure function of the characters -/

theorem refStep_mode (st : RefScan) (c : Char) (st₁ : RefScan)
    (h : refStep st c = some st₁) : st₁.mode = modeStep st.mode c := by
  match st with
  | ⟨.definition, b, r⟩ =>
    rw [refStep_definition_eq, Option.some_inj] at h
    subst h; rfl
  | ⟨.reference, b, r⟩ =>
    by_cases hd : c.isDigit
    · rw [refStep_digit_eq b r c hd, Option.some_inj] at h
      subst h
      simp [modeStep, hd]
    · match b with
      | none => rw [refStep_panic_eq r c (by simpa using hd)] at h; cases h
      | some v =>
        rw [refStep_flush_eq v r c (by simpa using hd), Option.some_inj] at h
        subst h; rfl
  | ⟨.string, b, r⟩ =>
    rw [refStep_string_eq, Option.some_inj] at h
    subst h; rfl

theorem refRun_mode :
    ∀ (cs : List Char) (st st' : RefScan),
      cs.foldlM refStep st = some st' → st'.mode = cs.foldl modeStep st.mode := by
  intro cs
  induction cs with
  | nil =>
    intro st st' h
    simp only [List.foldlM_nil, Option.pure_def, Option.some_inj] at h
    subst h; rfl
  | cons c cs ih =>
    intro st st' h
    simp only [List.foldlM_cons] at h
    cases hstep : refStep st c with
    | none =>
      rw [hstep] at h
      exact Option.noConfusion h
    | some st₁ =>
      rw [hstep] at h
      rw [List.foldl_cons, ← refStep_mode st c st₁ hstep]
      exact ih st₁ st' h

/-! ### Totality of both scanners under the `#`-guard -/

theorem refRun_total :
    ∀ (cs : List Char) (m : Mode) (b : Option Nat) (acc : List Nat),
      hashGuard m cs = true →
      (m = .reference → b.isSome = true ∨ headDigit cs = true) →
      (cs.foldlM refStep ⟨m, b, acc⟩).isSome = true := by
  intro cs
  induction cs with
  | nil => intro m b acc _ _; simp
  | cons c cs ih =>
    intro m b acc hg hb
    match m with
    | .string =>
      rw [show hashGuard Mode.string (c :: cs) = hashGuard (modeStep Mode.string c) cs from rfl]
        at hg
      simp only [List.foldlM_cons, refStep_string_eq, Option.bind_some]
      exact ih _ b acc hg (fun hr => absurd hr (modeStep_string_ne_ref c))
    | .definition =>
      by_cases hc : c = '#'
      · subst hc
        rw [show hashGuard Mode.definition ('#' :: cs) =
              (headDigit cs && hashGuard Mode.reference cs) from rfl, Bool.and_eq_true] at hg
        simp only [List.foldlM_cons, refStep_definition_eq, Option.bind_some]
        rw [show modeStep Mode.definition '#' = Mode.reference from rfl]
        exact ih .reference b acc hg.2 (fun _ => Or.inr hg.1)
      · rw [show hashGuard Mode.definition (c :: cs) =
              (if c = '#' then headDigit cs && hashGuard Mode.reference cs
               else hashGuard (modeStep Mode.definition c) cs) from rfl, if_neg hc] at hg
        simp only [List.foldlM_cons, refStep_definition_eq, Option.bind_some]
        exact ih _ b acc hg (fun hr => absurd (modeStep_definition_ref c hr) hc)
    | .reference =>
      by_cases hd : c.isDigit
      · have hc : c ≠ '#' := by
          intro hcc; subst hcc; exact absurd hd (by decide)
        rw [show hashGuard Mode.reference (c :: cs) =
              (if c = '#' then headDigit cs && hashGuard Mode.reference cs
               else hashGuard (modeStep Mode.reference c) cs) from rfl, if_neg hc,
            show modeStep Mode.reference c = if c.isDigit then Mode.reference
              else if c = quoteChar then Mode.string
              else if c = '#' then Mode.reference else Mode.definition from rfl] at hg
        simp only [hd, eq_self_iff_true, if_true] at hg
        simp only [List.foldlM_cons, refStep_digit_eq b acc c hd, Option.bind_some]
        exact ih .reference (pushDigit b c) acc hg (fun _ => Or.inl (by simp [pushDigit]))
      · have hd' : c.isDigit = false := by simpa using hd
        have hbs : b.isSome = true := by
          rcases hb rfl with hbs | hh
          · exact hbs
          · rw [headDigit] at hh
            exact absurd hh (by simp [hd'])
        match b, hbs with
        | some v, _ =>
          by_cases hc : c = '#'
          · subst hc
            rw [show hashGuard Mode.reference ('#' :: cs) =
                  (headDigit cs && hashGuard Mode.reference cs) from rfl,
                Bool.and_eq_true] at hg
            simp only [List.foldlM_cons, refStep_flush_eq v acc '#' (by decide),
              Option.bind_some]
            rw [show modeStep Mode.reference '#' = Mode.reference from rfl]
            exact ih .reference none (acc ++ [v]) hg.2 (fun _ => Or.inr hg.1)
          · rw [show hashGuard Mode.reference (c :: cs) =
                  (if c = '#' then headDigit cs && hashGuard Mode.reference cs
                   else hashGuard (modeStep Mode.reference c) cs) from rfl, if_neg hc] at hg
            simp only [List.foldlM_cons, refStep_flush_eq v acc c hd', Option.bind_some]
            exact ih _ none (acc ++ [v]) hg
              (fun hr => absurd (modeStep_reference_ref c hd' hr) hc)

theorem updRun_total (f : Nat → Nat) :
    ∀ (cs : List Char) (m : Mode) (b : Option Nat) (out : List Char),
      hashGuard m cs = true →
      (m = .reference → b.isSome = true ∨ headDigit cs = true) →
      (cs.foldlM (updStep f) ⟨m, b, out⟩).isSome = true := by
  intro cs
  induction cs with
  | nil => intro m b out _ _; simp
  | cons c cs ih =>
    intro m b out hg hb
    match m with
    | .string =>
      rw [show hashGuard Mode.string (c :: cs) = hashGuard (modeStep Mode.string c) cs from rfl]
        at hg
      simp only [List.foldlM_cons, updStep_string_eq, Option.bind_some]
      exact ih _ b _ hg (fun hr => absurd hr (modeStep_string_ne_ref c))
    | .definition =>
      by_cases hc : c = '#'
      · subst hc
        rw [show hashGuard Mode.definition ('#' :: cs) =
              (headDigit cs && hashGuard Mode.reference cs) from rfl, Bool.and_eq_true] at hg
        simp only [List.foldlM_cons, updStep_definition_hash, Option.bind_some]
        exact ih .reference b out hg.2 (fun _ => Or.inr hg.1)
      · rw [show hashGuard Mode.definition (c :: cs) =
              (if c = '#' then headDigit cs && hashGuard Mode.reference cs
               else hashGuard (modeStep Mode.definition c) cs) from rfl, if_neg hc] at hg
        simp only [List.foldlM_cons, updStep_definition_other f b out c hc, Option.bind_some]
        exact ih _ b _ hg (fun hr => absurd (modeStep_definition_ref c hr) hc)
    | .reference =>
      by_cases hd : c.isDigit
      · have hc : c ≠ '#' := by
          intro hcc; subst hcc; exact absurd hd (by decide)
        rw [show hashGuard Mode.reference (c :: cs) =
              (if c = '#' then headDigit cs && hashGuard Mode.reference cs
               else hashGuard (modeStep Mode.reference c) cs) from rfl, if_neg hc,
            show modeStep Mode.reference c = if c.isDigit then Mode.reference
              else if c = quoteChar then Mode.string
              else if c = '#' then Mode.reference else Mode.definition from rfl] at hg
        simp only [hd, eq_self_iff_true, if_true] at hg
        simp only [List.foldlM_cons, updStep_digit_eq f b out c hd, Option.bind_some]
        exact ih .reference (pushDigit b c) out hg (fun _ => Or.inl (by simp [pushDigit]))
      · have hd' : c.isDigit = false := by simpa using hd
        have hbs : b.isSome = true := by
          rcases hb rfl with hbs | hh
          · exact hbs
          · rw [headDigit] at hh
            exact absurd hh (by simp [hd'])
        match b, hbs with
        | some v, _ =>
          by_cases hc : c = '#'
          · subst hc
            rw [show hashGuard Mode.reference ('#' :: cs) =
                  (headDigit cs && hashGuard Mode.reference cs) from rfl,
                Bool.and_eq_true] at hg
            simp only [List.foldlM_cons, updStep_flush_hash, Option.bind_some]
            exact ih .reference none _ hg.2 (fun _ => Or.inr hg.1)
          · rw [show hashGuard Mode.reference (c :: cs) =
                  (if c = '#' then headDigit cs && hashGuard Mode.reference cs
                   else hashGuard (modeStep Mode.reference c) cs) from rfl, if_neg hc] at hg
            simp only [List.foldlM_cons, updStep_flush_other f v out c hd' hc, Option.bind_some]
            exact ih _ none _ hg (fun hr => absurd (modeStep_reference_ref c hd' hr) hc)

/-! ### The faithful scanners agree with the collapsed ones under `u64Guard` -/

theorem refRunU_eq_refRun :
    ∀ (cs : List Char) (m : Mode) (b : Option Nat) (acc : List Nat),
      u64Guard m b cs = true →
      cs.foldlM refStepU ⟨m, b, acc⟩ = cs.foldlM refStep ⟨m, b, acc⟩ := by
  intro cs
  induction cs with
  | nil => intro m b acc _; rfl
  | cons c cs ih =>
    intro m b acc hu
    match m with
    | .string =>
      rw [show u64Guard Mode.string b (c :: cs) = u64Guard (modeStep Mode.string c) b cs
            from rfl] at hu
      simp only [List.foldlM_cons, refStepU_string_eq, refStep_string_eq, Option.bind_some]
      exact ih _ b acc hu
    | .definition =>
      rw [show u64Guard Mode.definition b (c :: cs) = u64Guard (modeStep Mode.definition c) b cs
            from rfl] at hu
      simp only [List.foldlM_cons, refStepU_definition_eq, refStep_definition_eq,
        Option.bind_some]
      exact ih _ b acc hu
    | .reference =>
      by_cases hd : c.isDigit
      · rw [show u64Guard Mode.reference b (c :: cs) =
              (if c.isDigit then u64Guard Mode.reference (pushDigit b c) cs
               else decide (b.getD 0 ≤ u64Max) && u64Guard (modeStep Mode.reference c) none cs)
              from rfl, if_pos hd] at hu
        simp only [List.foldlM_cons, refStepU_digit_eq b acc c hd, refStep_digit_eq b acc c hd,
          Option.bind_some]
        exact ih .reference (pushDigit b c) acc hu
      · have hd' : c.isDigit = false := by simpa using hd
        rw [show u64Guard Mode.reference b (c :: cs) =
              (if c.isDigit then u64Guard Mode.reference (pushDigit b c) cs
               else decide (b.getD 0 ≤ u64Max) && u64Guard (modeStep Mode.reference c) none cs)
              from rfl, if_neg (by simp [hd']), Bool.and_eq_true] at hu
        match b with
        | none =>
          simp only [List.foldlM_cons, refStepU_panic_eq acc c hd', refStep_panic_eq acc c hd']
          rfl
        | some v =>
          have hv : v ≤ u64Max := by simpa using hu.1
          simp only [List.foldlM_cons, refStepU_flush_eq v acc c hd' hv,
            refStep_flush_eq v acc c hd', Option.bind_some]
          exact ih _ none (acc ++ [v]) hu.2

theorem updRunU_eq_updRun (f : Nat → Nat) :
    ∀ (cs : List Char) (m : Mode) (b : Option Nat) (out : List Char),
      u64Guard m b cs = true →
      cs.foldlM (updStepU f) ⟨m, b, out⟩ = cs.foldlM (updStep f) ⟨m, b, out⟩ := by
  intro cs
  induction cs with
  | nil => intro m b out _; rfl
  | cons c cs ih =>
    intro m b out hu
    match m with
    | .string =>
      rw [show u64Guard Mode.string b (c :: cs) = u64Guard (modeStep Mode.string c) b cs
            from rfl] at hu
      simp only [List.foldlM_cons, updStepU_string_eq, updStep_string_eq, Option.bind_some]
      exact ih _ b _ hu
    | .definition =>
      rw [show u64Guard Mode.definition b (c :: cs) = u64Guard (modeStep Mode.definition c) b cs
            from rfl] at hu
      by_cases hc : c = '#'
      · subst hc
        rw [show modeStep Mode.definition '#' = Mode.reference from rfl] at hu
        simp only [List.foldlM_cons, updStepU_definition_hash, updStep_definition_hash,
          Option.bind_some]
        exact ih .reference b out hu
      · simp only [List.foldlM_cons, updStepU_definition_other f b out c hc,
          updStep_definition_other f b out c hc, Option.bind_some]
        exact ih _ b _ hu
    | .reference =>
      by_cases hd : c.isDigit
      · rw [show u64Guard Mode.reference b (c :: cs) =
              (if c.isDigit then u64Guard Mode.reference (pushDigit b c) cs
               else decide (b.getD 0 ≤ u64Max) && u64Guard (modeStep Mode.reference c) none cs)
              from rfl, if_pos hd] at hu
        simp only [List.foldlM_cons, updStepU_digit_eq f b out c hd,
          updStep_digit_eq f b out c hd, Option.bind_some]
        exact ih .reference (pushDigit b c) out hu
      · have hd' : c.isDigit = false := by simpa using hd
        rw [show u64Guard Mode.reference b (c :: cs) =
              (if c.isDigit then u64Guard Mode.reference (pushDigit b c) cs
               else decide (b.getD 0 ≤ u64Max) && u64Guard (modeStep Mode.reference c) none cs)
              from rfl, if_neg (by simp [hd']), Bool.and_eq_true] at hu
        match b with
        | none =>
          simp only [List.foldlM_cons, updStepU_panic_eq f out c hd',
            updStep_panic_eq f out c hd']
          rfl
        | some v =>
          have hv : v ≤ u64Max := by simpa using hu.1
          by_cases hc : c = '#'
          · subst hc
            rw [show modeStep Mode.reference '#' = Mode.reference from rfl] at hu
            simp only [List.foldlM_cons, updStepU_flush_hash f v out hv,
              updStep_flush_hash, Option.bind_some]
            exact ih .reference none _ hu.2
          · simp only [List.foldlM_cons, updStepU_flush_other f v out c hd' hc hv,
              updStep_flush_other f v out c hd' hc, Option.bind_some]
            exact ih _ none _ hu.2

/-! ## Claim C1 and claim C10 -/

/-- C1 (counterexample): for the strictly monotone `f = Nat.succ` and the entry
`#1 = "#5#"`, `update_references` rewrites the definition to `"#6"`, whose
reference list `[]` is not the element-wise image `[6]` of the original
reference list `[5]`: the trailing `#`-terminated reference is flushed into
the rewritten text without a terminator and is dropped when re-extracted. -/
theorem C1_counterexample :
    StrictMono Nat.succ ∧
    updateReferences Nat.succ ⟨1, "#5#"⟩ = some ⟨2, "#6"⟩ ∧
    getReferences ⟨1, "#5#"⟩ = some [5] ∧
    getReferences ⟨2, "#6"⟩ = some [] ∧
    ([] : List Nat) ≠ List.map Nat.succ [5] :=
  ⟨fun _ _ h => Nat.succ_lt_succ h, by decide, by decide, by decide, by decide⟩

/-- C1 (amended): for every strictly monotone `f` and every entry whose
reference scan does not end in the middle of a reference (final scanner mode
is not `Reference`), a successful `update_references` is a homomorphism:
the updated id is `f` of the old id and the references of the rewritten
definition are the element-wise image under `f` (same order and multiplicity)
of the references of the original definition. -/
theorem C1_theorem (e : StepEntry) (f : Nat → Nat) (hf : StrictMono f) (e' : StepEntry)
    (hu : updateReferences f e = some e')
    (hm : scanFinalMode e.definition ≠ Mode.reference) :
    e'.id = f e.id ∧
      ∃ rs, getReferences e = some rs ∧ getReferences e' = some (rs.map f) := by
  have hinv : SimInv f .definition [] [] := by
    show refRun0 [] = some ⟨.definition, none, List.map f []⟩
    rfl
  rcases sim f e.definition.data .definition none [] [] hinv with
    ⟨hn, _⟩ | ⟨st', out', hu', hr', hinv'⟩
  · rw [updateReferences, hn] at hu
    exact Option.noConfusion hu
  · rw [updateReferences, hu'] at hu
    simp only [Option.map_some', Option.some_inj] at hu
    subst hu
    have hmode : st'.mode = scanFinalMode e.definition := by
      have := refRun_mode e.definition.data ⟨.definition, none, []⟩ st' hr'
      simpa [scanFinalMode] using this
    have hne : st'.mode ≠ Mode.reference := by
      intro hh
      exact hm (hmode ▸ hh)
    refine ⟨rfl, st'.result, ?_, ?_⟩
    · rw [getReferences, hr']
      rfl
    · show ((String.mk out').data.foldlM refStep ⟨.definition, none, []⟩).map (·.result) = _
      match hmm : st'.mode with
      | .reference => exact absurd hmm hne
      | .definition =>
          rw [hmm] at hinv'
          have h2 : refRun0 out' = some ⟨.definition, none, st'.result.map f⟩ := hinv'
          rw [show (String.mk out').data = out' from rfl]
          rw [show out'.foldlM refStep (⟨.definition, none, []⟩ : RefScan) = refRun0 out'
            from rfl, h2]
          rfl
      | .string =>
          rw [hmm] at hinv'
          have h2 : refRun0 out' = some ⟨.string, none, st'.result.map f⟩ := hinv'
          rw [show (String.mk out').data = out' from rfl]
          rw [show out'.foldlM refStep (⟨.definition, none, []⟩ : RefScan) = refRun0 out'
            from rfl, h2]
          rfl

/-- C1 (witness): the amended homomorphism applied to the concrete entry
`#1 = "F(#2)"` and the strictly monotone shift `Nat.succ`. -/
theorem C1_witness :
    (StepEntry.mk 2 "F(#3)").id = Nat.succ (StepEntry.mk 1 "F(#2)").id ∧
      ∃ rs, getReferences ⟨1, "F(#2)"⟩ = some rs ∧
        getReferences ⟨2, "F(#3)"⟩ = some (rs.map Nat.succ) :=
  C1_theorem ⟨1, "F(#2)"⟩ Nat.succ (fun _ _ h => Nat.succ_lt_succ h) ⟨2, "F(#3)"⟩
    (by decide) (by decide)

/-- C10 (counterexample): two distinct panic paths of
`buffer.parse::<u64>().unwrap()`.  On the definition `"#a"`, a `#` outside
quotes is immediately followed by a non-digit and the parse of the empty
buffer panics.  On `"F(#18446744073709551616)"` every `#` is followed by a
digit, yet the single reference is `u64::MAX + 1`, so `u64::from_str` fails
with `PosOverflow` and the unwrap panics (modelled as `none`). -/
theorem C10_counterexample :
    getReferencesU ⟨1, "#a"⟩ = none ∧
    updateReferencesU (fun n => n) ⟨1, "#a"⟩ = none ∧
    hashesGuarded "F(#18446744073709551616)" = true ∧
    getReferencesU ⟨1, "F(#18446744073709551616)"⟩ = none ∧
    updateReferencesU (fun n => n) ⟨1, "F(#18446744073709551616)"⟩ = none :=
  ⟨by decide, by decide, by decide, by decide, by decide⟩

/-- C10 (amended): `get_references` and `update_references` return normally
for every definition string in which every `#` outside single-quoted spans is
immediately followed by an ASCII digit (`hashesGuarded`) and every digit run
flushed by the scan parses within `u64` (`refsFit`); a definition that ends
while a reference is being scanned is fine, since the pending buffer is never
parsed.  Outside this guard they can panic: a `#` outside quotes followed by
a non-digit makes the empty-buffer parse panic, and a flushed digit run whose
value exceeds `u64::MAX` makes the parse panic with `PosOverflow`. -/
theorem C10_theorem (e : StepEntry) (f : Nat → Nat)
    (hg : hashesGuarded e.definition = true)
    (hfit : refsFit e.definition = true) :
    (getReferencesU e).isSome = true ∧ (updateReferencesU f e).isSome = true := by
  constructor
  · rw [getReferencesU, Option.isSome_map',
      refRunU_eq_refRun e.definition.data .definition none [] hfit]
    exact refRun_total e.definition.data .definition none [] hg (by simp)
  · rw [updateReferencesU, Option.isSome_map',
      updRunU_eq_updRun f e.definition.data .definition none [] hfit]
    exact updRun_total f e.definition.data .definition none [] hg (by simp)

/-- C10 (witness): totality on the concrete guarded definition
`"FOO('a#b', #12, #3)"`, whose references all fit in `u64`. -/
theorem C10_witness :
    (getReferencesU ⟨7, "FOO('a#b', #12, #3)"⟩).isSome = true ∧
      (updateReferencesU (fun n => n + 5) ⟨7, "FOO('a#b', #12, #3)"⟩).isSome = true :=
  C10_theorem ⟨7, "FOO('a#b', #12, #3)"⟩ (fun n => n + 5) (by decide) (by decide)

/-! ## The buffered replayable iterator (`src/merge/buffered_iterator.rs`)

The inner Rust iterator (a one-shot sequence) is modelled by the list of its
remaining items. -/

/-- `enum Mode` of the buffered iterator. -/
inductive BMode where
  | normal
  | fillBuffer
  | readBuffer (index : Nat)
deriving DecidableEq, Repr

/-- `BufferedIterator`: the replay buffer, the remaining items of the inner
iterator, and the mode. -/
structure BufferedIterator (α : Type) where
  buffer : List α
  iterator : List α
  mode : BMode
deriving DecidableEq, Repr

namespace BufferedIterator

/-- `BufferedIterator::new`. -/
def new {α : Type} (l : List α) : BufferedIterator α := ⟨[], l, .normal⟩

/-- `BufferedIterator::set_buffering_mode`: clears the buffer and switches to
`FillBuffer`. -/
def setBufferingMode {α : Type} (st : BufferedIterator α) : BufferedIterator α :=
  { st with buffer := [], mode := .fillBuffer }

/-- `BufferedIterator::reset`: switches from `FillBuffer` to `ReadBuffer(0)`. -/
def reset {α : Type} (st : BufferedIterator α) : BufferedIterator α :=
  if st.mode = .fillBuffer then { st with mode := .readBuffer 0 } else st

/-- `next` in `Mode::Normal`: pull from the inner iterator. -/
def nextNormal {α : Type} (st : BufferedIterator α) : Option α × BufferedIterator α :=
  match st.iterator with
  | [] => (none, st)
  | x :: xs => (some x, { st with iterator := xs })

/-- `BufferedIterator::next`.  In `ReadBuffer`, when the index runs off the
buffer the Rust code sets `Normal` and calls `next` again; that inner call is
`nextNormal`. -/
def next {α : Type} (st : BufferedIterator α) : Option α × BufferedIterator α :=
  match st.mode with
  | .normal => nextNormal st
  | .fillBuffer =>
      match st.iterator with
      | [] => (none, st)
      | x :: xs => (some x, { st with iterator := xs, buffer := st.buffer ++ [x] })
  | .readBuffer i =>
      if h : i < st.buffer.length then
        (some (st.buffer.get ⟨i, h⟩), { st with mode := .readBuffer (i + 1) })
      else
        nextNormal { st with mode := .normal }

/-- `n` successive calls to `next`, collecting the produced items and
stopping early if `next` yields `None`. -/
def nextN {α : Type} : Nat → BufferedIterator α → List α × BufferedIterator α
  | 0, st => ([], st)
  | n + 1, st =>
      match next st with
      | (none, st') => ([], st')
      | (some a, st') =>
          let r := nextN n st'
          (a :: r.1, r.2)

theorem nextN_fill {α : Type} :
    ∀ (n : Nat) (b l : List α), n ≤ l.length →
      nextN n ⟨b, l, .fillBuffer⟩ = (l.take n, ⟨b ++ l.take n, l.drop n, .fillBuffer⟩) := by
  intro n
  induction n with
  | zero => intro b l _; simp [nextN]
  | succ n ih =>
    intro b l hl
    match l with
    | [] => simp at hl
    | x :: xs =>
      simp only [nextN, next]
      rw [ih (b ++ [x]) xs (by simpa using hl)]
      simp

theorem nextN_normal_full {α : Type} :
    ∀ (l : List α) (b : List α) (m : Nat), l.length < m →
      nextN m ⟨b, l, .normal⟩ = (l, ⟨b, [], .normal⟩) := by
  intro l
  induction l with
  | nil =>
    intro b m hm
    match m with
    | k + 1 => simp [nextN, next, nextNormal]
  | cons x xs ih =>
    intro b m hm
    match m with
    | k + 1 =>
      simp only [nextN, next, nextNormal]
      rw [ih b k (by simpa using hm)]

theorem nextN_read_full {α : Type} :
    ∀ (m i : Nat) (b l : List α), i ≤ b.length → (b.length - i) + l.length < m →
      nextN m ⟨b, l, .readBuffer i⟩ = (b.drop i ++ l, ⟨b, [], .normal⟩) := by
  intro m
  induction m with
  | zero => intro i b l _ hm; omega
  | succ m ih =>
    intro i b l hi hm
    by_cases h : i < b.length
    · simp only [nextN, next, dif_pos h]
      rw [ih (i + 1) b l (by omega) (by omega)]
      have := List.getElem_cons_drop b i h
      simp only [List.get_eq_getElem]
      rw [show b[i] :: (List.drop (i + 1) b ++ l) = (b[i] :: List.drop (i + 1) b) ++ l
        from rfl, this]
    · have hib : i = b.length := by omega
      subst hib
      simp only [nextN, next, dif_neg h]
      match l with
      | [] => simp [nextNormal]
      | x :: xs =>
        simp only [nextNormal]
        rw [nextN_normal_full xs b m (by simp at hm; omega)]
        simp

/-- C9: the buffered-iterator replay contract.  From any prior state:
`set_buffering_mode` clears the buffer; consuming `n ≤ |inner|` items yields
the first `n` remaining inner items while recording them; after `reset`,
draining the iterator yields exactly those `n` items again in order, followed
by the remaining inner items, ending with an exhausted inner iterator. -/
theorem C9_theorem {α : Type} (st : BufferedIterator α) (n : Nat)
    (hn : n ≤ st.iterator.length) :
    (setBufferingMode st).buffer = [] ∧
    (nextN n (setBufferingMode st)).1 = st.iterator.take n ∧
    nextN (st.iterator.length + 1) (reset (nextN n (setBufferingMode st)).2) =
      (st.iterator.take n ++ st.iterator.drop n,
        ⟨st.iterator.take n, [], .normal⟩) := by
  obtain ⟨b, l, m⟩ := st
  refine ⟨rfl, ?_, ?_⟩
  · rw [show setBufferingMode ⟨b, l, m⟩ = ⟨[], l, .fillBuffer⟩ from rfl,
      nextN_fill n [] l hn]
  · rw [show setBufferingMode ⟨b, l, m⟩ = ⟨[], l, .fillBuffer⟩ from rfl,
      nextN_fill n [] l hn]
    simp only [List.nil_append]
    rw [show reset ⟨l.take n, l.drop n, .fillBuffer⟩
        = ⟨l.take n, l.drop n, .readBuffer 0⟩ from rfl]
    rw [nextN_read_full (l.length + 1) 0 (l.take n) (l.drop n) (by omega)
      (by simp [List.length_take, List.length_drop]; omega)]
    simp

/-- C9 (witness): the replay contract on the inner iterator `[1, 2, 3]` with
`n = 2`, starting from a state that still holds a stale buffer. -/
theorem C9_witness :
    (BufferedIterator.setBufferingMode (⟨[9], [1, 2, 3], .readBuffer 1⟩ : BufferedIterator Nat)).buffer = [] ∧
    (BufferedIterator.nextN 2 (BufferedIterator.setBufferingMode
        (⟨[9], [1, 2, 3], .readBuffer 1⟩ : BufferedIterator Nat))).1 = [1, 2, 3].take 2 ∧
    BufferedIterator.nextN ([1, 2, 3].length + 1)
        (BufferedIterator.reset (BufferedIterator.nextN 2 (BufferedIterator.setBufferingMode
          (⟨[9], [1, 2, 3], .readBuffer 1⟩ : BufferedIterator Nat))).2) =
      ([1, 2, 3].take 2 ++ [1, 2, 3].drop 2, ⟨[1, 2, 3].take 2, [], .normal⟩) :=
  C9_theorem (⟨[9], [1, 2, 3], .readBuffer 1⟩ : BufferedIterator Nat) 2 (by decide)

end BufferedIterator

/-! ## Root-node discovery (`src/merge/root_nodes.rs`)

`HashMap` is modelled by an association list where the newest insertion is
consed to the front and lookup takes the first hit (last-insert-wins, as for
`HashMap::insert`); `HashSet` is modelled by a membership list. -/

/-- `NodeStepIds` (src/merge/utils.rs). -/
structure NodeStepIds where
  product_definition_id : Nat
  shape_representation_id : Nat
deriving DecidableEq, Repr

/-- `HashMap::insert` on the association-list model. -/
def mapInsert (m : List (Nat × Nat)) (k v : Nat) : List (Nat × Nat) := (k, v) :: m

/-- `HashMap::get` on the association-list model. -/
def mapLookup (m : List (Nat × Nat)) (k : Nat) : Option Nat :=
  (m.find? (fun p => p.1 = k)).map (·.2)

/-- `FindRootNodes` (src/merge/root_nodes.rs). -/
structure FindRootNodes where
  shape_def_rep_to_shape_rep : List (Nat × Nat)
  prod_def_shape_to_shape_def_rep : List (Nat × Nat)
  prod_def_to_prod_def_shape : List (Nat × Nat)
  prod_def_assembly_occurrences : List Nat
deriving DecidableEq, Repr

/-- `FindRootNodes::new` / `default`. -/
def emptyRootNodes : FindRootNodes := ⟨[], [], [], []⟩

/-- `FindRootNodes::extract_keyword`: trim, then the leading run of ASCII
uppercase letters and underscores. -/
def extractKeyword (definition : String) : String :=
  String.mk ((definition.data.dropWhile Char.isWhitespace).takeWhile
    (fun c => c.isUpper || c = '_'))

/-- `FindRootNodes::add_entry`.  A malformed reference arity is logged and
skipped (state unchanged); `none` models a panic inside `get_references`. -/
def FindRootNodes.addEntry (st : FindRootNodes) (e : StepEntry) : Option FindRootNodes :=
  let keyword := extractKeyword e.definition
  if keyword = "SHAPE_DEFINITION_REPRESENTATION" then
    match getReferences e with
    | none => none
    | some [prodDefShapeId, shapeRepId] =>
        some { st with
          shape_def_rep_to_shape_rep :=
            mapInsert st.shape_def_rep_to_shape_rep e.id shapeRepId
          prod_def_shape_to_shape_def_rep :=
            mapInsert st.prod_def_shape_to_shape_def_rep prodDefShapeId e.id }
    | some _ => some st
  else if keyword = "PRODUCT_DEFINITION_SHAPE" then
    match getReferences e with
    | none => none
    | some [] => some st
    | some (r :: rs) =>
        some { st with prod_def_to_prod_def_shape :=
          st.prod_def_to_prod_def_shape ++ [((r :: rs).getLast (by simp), e.id)] }
  else if keyword = "NEXT_ASSEMBLY_USAGE_OCCURRENCE" then
    match getReferences e with
    | none => none
    | some [_, prodDefId] =>
        some { st with prod_def_assembly_occurrences :=
          prodDefId :: st.prod_def_assembly_occurrences }
    | some _ => some st
  else some st

/-- `FindRootNodes::get_root_nodes`. -/
def FindRootNodes.getRootNodes (st : FindRootNodes) : List NodeStepIds :=
  st.prod_def_to_prod_def_shape.filterMap (fun pd =>
    if pd.1 ∈ st.prod_def_assembly_occurrences then none
    else
      match mapLookup st.prod_def_shape_to_shape_def_rep pd.2 with
      | none => none
      | some shapeDefRepId =>
          match mapLookup st.shape_def_rep_to_shape_rep shapeDefRepId with
          | none => none
          | some shapeRepId => some ⟨pd.1, shapeRepId⟩)

/-- Feeding a finite entry stream to the root finder via `add_entry`. -/
def runRootFinder (entries : List StepEntry) : Option FindRootNodes :=
  entries.foldlM FindRootNodes.addEntry emptyRootNodes

theorem addEntry_occ_mono (st st' : FindRootNodes) (e : StepEntry)
    (h : FindRootNodes.addEntry st e = some st') :
    ∀ x ∈ st.prod_def_assembly_occurrences, x ∈ st'.prod_def_assembly_occurrences := by
  intro x hx
  unfold FindRootNodes.addEntry at h
  dsimp only at h
  split_ifs at h <;> (try split at h) <;>
    first
      | exact Option.noConfusion h
      | (obtain rfl := Option.some_inj.mp h
         first
           | exact hx
           | exact List.mem_cons_of_mem _ hx)

/-- A well-formed `NEXT_ASSEMBLY_USAGE_OCCURRENCE` entry records its second
reference in the occurrence set. -/
theorem addEntry_nauo (st st' : FindRootNodes) (e : StepEntry) (a b : Nat)
    (hk : extractKeyword e.definition = "NEXT_ASSEMBLY_USAGE_OCCURRENCE")
    (hr : getReferences e = some [a, b])
    (h : FindRootNodes.addEntry st e = some st') :
    b ∈ st'.prod_def_assembly_occurrences := by
  unfold FindRootNodes.addEntry at h
  dsimp only at h
  rw [hk, if_neg (by decide), if_neg (by decide), if_pos rfl, hr] at h
  simp only [Option.some_inj] at h
  subst h
  simp

theorem foldl_addEntry_occ :
    ∀ (entries : List StepEntry) (st0 st' : FindRootNodes),
      entries.foldlM FindRootNodes.addEntry st0 = some st' →
      (∀ x ∈ st0.prod_def_assembly_occurrences, x ∈ st'.prod_def_assembly_occurrences) ∧
      (∀ e ∈ entries,
        extractKeyword e.definition = "NEXT_ASSEMBLY_USAGE_OCCURRENCE" →
        ∀ a b, getReferences e = some [a, b] → b ∈ st'.prod_def_assembly_occurrences) := by
  intro entries
  induction entries with
  | nil =>
    intro st0 st' h
    simp only [List.foldlM_nil, Option.pure_def, Option.some_inj] at h
    subst h
    exact ⟨fun x hx => hx, by simp⟩
  | cons e es ih =>
    intro st0 st' h
    simp only [List.foldlM_cons] at h
    cases hstep : FindRootNodes.addEntry st0 e with
    | none => rw [hstep] at h; exact Option.noConfusion h
    | some st₁ =>
      rw [hstep] at h
      obtain ⟨hmono, hall⟩ := ih st₁ st' h
      refine ⟨fun x hx => hmono x (addEntry_occ_mono st0 st₁ e hstep x hx), ?_⟩
      intro e' he' hk a b hr
      rcases List.mem_cons.mp he' with rfl | he'
      · exact hmono b (addEntry_nauo st0 st₁ e' a b hk hr hstep)
      · exact hall e' he' hk a b hr

/-- Every returned root's product definition is outside the occurrence set. -/
theorem getRootNodes_not_occ (st : FindRootNodes) (ids : NodeStepIds)
    (h : ids ∈ st.getRootNodes) :
    ids.product_definition_id ∉ st.prod_def_assembly_occurrences := by
  unfold FindRootNodes.getRootNodes at h
  obtain ⟨pd, _, hf⟩ := List.mem_filterMap.mp h
  by_cases hocc : pd.1 ∈ st.prod_def_assembly_occurrences
  · rw [if_pos hocc] at hf
    exact Option.noConfusion hf
  · rw [if_neg hocc] at hf
    split at hf
    · exact Option.noConfusion hf
    · split at hf
      · exact Option.noConfusion hf
      · simp only [Option.some_inj] at hf
        rw [← hf]
        exact hocc

/-- The literal claim C6: no returned product-definition id appears as the
second reference of any `NEXT_ASSEMBLY_USAGE_OCCURRENCE` entry of the stream,
regardless of the entry's reference count. -/
def noRootIsNauoChild (entries : List StepEntry) : Prop :=
  ∀ st, runRootFinder entries = some st →
    ∀ ids ∈ st.getRootNodes, ∀ e ∈ entries,
      extractKeyword e.definition = "NEXT_ASSEMBLY_USAGE_OCCURRENCE" →
      ∀ refs, getReferences e = some refs →
        refs.get? 1 ≠ some ids.product_definition_id

/-- C6 (counterexample): a `NEXT_ASSEMBLY_USAGE_OCCURRENCE` with three
references is skipped by `add_entry` (malformed arity), so its second
reference `#14` is still returned as a root by `get_root_nodes` although it
appears as the second reference of that entry. -/
theorem C6_counterexample :
    ¬ noRootIsNauoChild
      [⟨100, "SHAPE_DEFINITION_REPRESENTATION(#50,#60)"⟩,
       ⟨50, "PRODUCT_DEFINITION_SHAPE('',$,#14)"⟩,
       ⟨70, "NEXT_ASSEMBLY_USAGE_OCCURRENCE('a','','b',#13,#14,#15)"⟩] := by
  intro h
  exact h ⟨[(100, 60)], [(50, 100)], [(14, 50)], []⟩ (by decide)
    ⟨14, 60⟩ (by decide)
    ⟨70, "NEXT_ASSEMBLY_USAGE_OCCURRENCE('a','','b',#13,#14,#15)"⟩ (by decide)
    (by decide) [13, 14, 15] (by decide) (by decide)

/-- C6 (amended): for every finite entry stream on which the root finder runs
without panicking, no product-definition id returned by `get_root_nodes`
appears as the second reference of any `NEXT_ASSEMBLY_USAGE_OCCURRENCE` entry
of the stream that has exactly two references (entries with a different
reference count are skipped by `add_entry` and are not covered). -/
theorem C6_theorem (entries : List StepEntry) (st : FindRootNodes)
    (h : runRootFinder entries = some st) :
    ∀ ids ∈ st.getRootNodes, ∀ e ∈ entries,
      extractKeyword e.definition = "NEXT_ASSEMBLY_USAGE_OCCURRENCE" →
      ∀ a b, getReferences e = some [a, b] → b ≠ ids.product_definition_id := by
  intro ids hids e he hk a b hr hbe
  have hocc := (foldl_addEntry_occ entries emptyRootNodes st h).2 e he hk a b hr
  rw [hbe] at hocc
  exact getRootNodes_not_occ st ids hids hocc

/-- C6 (witness): the amended statement applied to a concrete stream with a
well-formed two-reference `NEXT_ASSEMBLY_USAGE_OCCURRENCE`. -/
theorem C6_witness : 99 ≠ (NodeStepIds.mk 14 60).product_definition_id :=
  C6_theorem
    [⟨100, "SHAPE_DEFINITION_REPRESENTATION(#50,#60)"⟩,
     ⟨50, "PRODUCT_DEFINITION_SHAPE('',$,#14)"⟩,
     ⟨71, "NEXT_ASSEMBLY_USAGE_OCCURRENCE('a','','b',#13,#99)"⟩]
    ⟨[(100, 60)], [(50, 100)], [(14, 50)], [99]⟩ (by decide)
    ⟨14, 60⟩ (by decide)
    ⟨71, "NEXT_ASSEMBLY_USAGE_OCCURRENCE('a','','b',#13,#99)"⟩ (by decide)
    (by decide) 13 99 (by decide)

/-! ## The merge driver (`src/merge/mod.rs`)

The driver's methods take `&mut self`; they are embedded in the state monad
`M` over `MergerState`.  The `StepWriter` is modelled by the ordered list
`output` of entries passed to `write_entry` (the claims below concern the
data section only, not the header framing).  The 16 `f32` entries of a
node's column-major transform are modelled as exact rationals; `fmtNum`
renders an integral value the way Rust's `Display` for `f32` prints `0.`,
`1.` etc. without a fractional part.  (No statement below depends on the
text of a non-integral matrix entry.) -/

/-- `MetadataEntry` (src/assembly.rs). -/
structure MetadataEntry where
  key : String
  value : String
deriving DecidableEq, Repr

/-- `Node` (src/assembly.rs). -/
structure Node where
  link : Option String
  label : String
  metadata : List MetadataEntry
  transform : List ℚ
  children : List Nat
deriving DecidableEq, Repr

/-- `identity_matrix` (src/assembly.rs). -/
def identity_matrix : List ℚ :=
  [1, 0, 0, 0, 0, 1, 0, 0, 0, 0, 1, 0, 0, 0, 0, 1]

/-- `Assembly` (src/assembly.rs). -/
structure Assembly where
  nodes : List Node
deriving DecidableEq, Repr

/-- Rendering of a (modelled) `f32` value in `format!`. -/
def fmtNum (q : ℚ) : String :=
  if q.den = 1 then toString q.num else toString q

/-- The recoverable errors of the per-file import path. -/
inductive MergeErr where
  | appContextMissing (filename : String)
  | resolveFailed (link : String)
deriving DecidableEq, Repr

/-- The mutable state of `StepMerger`: the driver fields plus the writer
output (`output` = entries passed to `StepWriter::write_entry`, in order)
and the instrumentation list `invocations` recording each resolver call. -/
structure MergerState where
  default_coordinate_system : Nat
  id_counter : Nat
  mechanical_design_ids : List Nat
  output : List StepEntry
  invocations : List String
deriving DecidableEq, Repr

/-- The state of `StepMerger::new`. -/
def initialMergerState : MergerState := ⟨0, 0, [], [], []⟩

/-- State monad over `MergerState`, embedding the `&mut self` methods. -/
def M (α : Type) : Type := MergerState → α × MergerState

instance : Monad M where
  pure a := fun st => (a, st)
  bind m k := fun st =>
    let r := m st
    k r.1 r.2

/-- `StepMerger::get_new_id` followed by `StepMerger::add_entry`: allocate
`id_counter + 1` and write `#id=definition` to the output. -/
def addEntryM (definition : String) : M Nat := fun st =>
  (st.id_counter + 1,
   { st with
       id_counter := st.id_counter + 1
       output := st.output ++ [⟨st.id_counter + 1, definition⟩] })

/-- `StepMerger::add_entry_full`: write an already-numbered entry. -/
def addEntryFullM (e : StepEntry) : M Unit := fun st =>
  ((), { st with output := st.output ++ [e] })

/-- Store the id of the default coordinate system
(`self.default_coordinate_system = ...`). -/
def setDefaultCoordinateSystem (id : Nat) : M Unit := fun st =>
  ((), { st with default_coordinate_system := id })

/-- `StepMerger::create_app_context` (the succeeding `assert_eq!(app_id, 1)`
holds because this runs first in `merge`). -/
def createAppContext : M Unit := do
  let _ ← addEntryM ("APPLICATION_CONTEXT('Configuration controlled 3D designs of mechanical parts and assemblies')")
  let _ ← addEntryM ("APPLICATION_PROTOCOL_DEFINITION('international standard', 'configuration_control_3d_design_ed2_mim',2004, #1)")
  pure ()

/-- `StepMerger::create_node`: the fixed per-node entries plus a 4-entry
block per metadata pair. -/
def createNode (node : Node) : M NodeStepIds := do
  let label := node.label
  let start_id ← addEntryM ("CARTESIAN_POINT('',(0.,0.,0.))")
  let _ ← addEntryM ("DIRECTION('',(0.,0.,1.))")
  let _ ← addEntryM ("DIRECTION('',(1.,0.,0.))")
  let _ ← addEntryM (s!"AXIS2_PLACEMENT_3D('',#{start_id},#{start_id + 1},#{start_id + 2})")
  let _ ← addEntryM ("(NAMED_UNIT(*)SI_UNIT($,.STERADIAN.)SOLID_ANGLE_UNIT())")
  let _ ← addEntryM ("(LENGTH_UNIT()NAMED_UNIT(*)SI_UNIT(.MILLI.,.METRE.))")
  let _ ← addEntryM ("(NAMED_UNIT(*)PLANE_ANGLE_UNIT()SI_UNIT($,.RADIAN.))")
  let _ ← addEntryM ("PRODUCT_CONTEXT('',#1,'mechanical')")
  let _ ← addEntryM (s!"PRODUCT('{label}','{label}','',(#{start_id + 7}))")
  let _ ← addEntryM ("PRODUCT_DEFINITION_CONTEXT('part_definition',#1,'')")
  let _ ← addEntryM (s!"PRODUCT_DEFINITION_FORMATION('','',#{start_id + 8})")
  let product_definition_id ← addEntryM
    (s!"PRODUCT_DEFINITION('','',#{start_id + 10},#{start_id + 9})")
  let _ ← addEntryM (s!"PRODUCT_DEFINITION_SHAPE('',$,#{start_id + 11})")
  let _ ← addEntryM (s!"PRODUCT_RELATED_PRODUCT_CATEGORY('component','',(#{start_id + 8}))")
  let _ ← addEntryM (s!"UNCERTAINTY_MEASURE_WITH_UNIT(LENGTH_MEASURE(0.1E-12),#{start_id + 5},'distance accuracy value','edge curve and vertex point accuracy')")
  let _ ← addEntryM (s!"(GEOMETRIC_REPRESENTATION_CONTEXT(3)GLOBAL_UNCERTAINTY_ASSIGNED_CONTEXT((#{start_id + 14}))GLOBAL_UNIT_ASSIGNED_CONTEXT((#{start_id + 5},#{start_id + 6},#{start_id + 4}))REPRESENTATION_CONTEXT('',''))")
  let shape_representation_id ← addEntryM
    (s!"SHAPE_REPRESENTATION('{label}',(#{start_id + 3}),#{start_id + 15})")
  let _ ← addEntryM (s!"SHAPE_DEFINITION_REPRESENTATION(#{start_id + 12},#{start_id + 16})")
  node.metadata.forM (fun metadata => do
    let k := metadata.key
    let v := metadata.value
    let prop_def_id ← addEntryM (s!"PROPERTY_DEFINITION('{k}','',#{product_definition_id})")
    let desc_rep_item_id ← addEntryM (s!"DESCRIPTIVE_REPRESENTATION_ITEM('{k}','{v}')")
    let rep_id ← addEntryM (s!"REPRESENTATION('',(#{desc_rep_item_id}),$)")
    let _ ← addEntryM (s!"PROPERTY_DEFINITION_REPRESENTATION(#{prop_def_id},#{rep_id})")
    pure ())
  pure ⟨product_definition_id, shape_representation_id⟩

/-- `StepMerger::create_parent_child_relation`: the 8-entry block linking a
parent and a child shape, with the translation scaled metres → millimetres. -/
def createParentChildRelation (parent_label child_label : String)
    (parent_ids child_ids : NodeStepIds) (transform : List ℚ) : M Unit := do
  let px := fmtNum (transform.getD 12 0 * 1000)
  let py := fmtNum (transform.getD 13 0 * 1000)
  let pz := fmtNum (transform.getD 14 0 * 1000)
  let xx := fmtNum (transform.getD 0 0)
  let xy := fmtNum (transform.getD 1 0)
  let xz := fmtNum (transform.getD 2 0)
  let zx := fmtNum (transform.getD 8 0)
  let zy := fmtNum (transform.getD 9 0)
  let zz := fmtNum (transform.getD 10 0)
  let psr := parent_ids.shape_representation_id
  let csr := child_ids.shape_representation_id
  let ppd := parent_ids.product_definition_id
  let cpd := child_ids.product_definition_id
  let start_id ← addEntryM (s!"CARTESIAN_POINT('',({px},{py},{pz}))")
  let _ ← addEntryM (s!"DIRECTION('',({zx},{zy},{zz}))")
  let _ ← addEntryM (s!"DIRECTION('',({xx},{xy},{xz}))")
  let _ ← addEntryM (s!"AXIS2_PLACEMENT_3D('',#{start_id},#{start_id + 1},#{start_id + 2})")
  let dcs ← (fun st => (st.default_coordinate_system, st) : M Nat)
  let _ ← addEntryM (s!"ITEM_DEFINED_TRANSFORMATION('','',#{dcs},#{start_id + 3})")
  let _ ← addEntryM (s!"(REPRESENTATION_RELATIONSHIP('Child > Parent','{child_label} > {parent_label}',#{csr}, #{psr})REPRESENTATION_RELATIONSHIP_WITH_TRANSFORMATION(#{start_id + 4})SHAPE_REPRESENTATION_RELATIONSHIP())")
  let _ ← addEntryM (s!"NEXT_ASSEMBLY_USAGE_OCCURRENCE('{child_label}','','{child_label}',#{ppd},#{cpd},'{child_label}')")
  let _ ← addEntryM (s!"PRODUCT_DEFINITION_SHAPE('{child_label}',$,#{start_id + 6})")
  let _ ← addEntryM (s!"CONTEXT_DEPENDENT_SHAPE_REPRESENTATION(#{start_id + 5},#{start_id + 7})")
  pure ()

/-- `StepMerger::write_mechanical_part_entries`: the unit/measure entries,
the combined context, and the final aggregating
`MECHANICAL_DESIGN_GEOMETRIC_PRESENTATION_REPRESENTATION`. -/
def writeMechanicalPartEntries : M Unit := do
  let length ← addEntryM ("(LENGTH_UNIT()NAMED_UNIT(*)SI_UNIT(.MILLI.,.METRE.))")
  let angle_units ← addEntryM ("(NAMED_UNIT(*)PLANE_ANGLE_UNIT()SI_UNIT($,.RADIAN.))")
  let _ ← addEntryM (s!"PLANE_ANGLE_MEASURE_WITH_UNIT(PLANE_ANGLE_MEASURE(1.745329251994E-02),#{angle_units})")
  let dim_exp ← addEntryM ("DIMENSIONAL_EXPONENTS(0.,0.,0.,0.,0.,0.,0.)")
  let angle ← addEntryM (s!"(CONVERSION_BASED_UNIT('DEGREE',#{dim_exp})NAMED_UNIT(#101)PLANE_ANGLE_UNIT())")
  let unit ← addEntryM ("(NAMED_UNIT(*)SI_UNIT($,.STERADIAN.)SOLID_ANGLE_UNIT())")
  let uncertain ← addEntryM (s!"UNCERTAINTY_MEASURE_WITH_UNIT(LENGTH_MEASURE(10.E-03),#{length},'distance_accuracy_value','Confusion accuracy')")
  let full ← addEntryM (s!"(GEOMETRIC_REPRESENTATION_CONTEXT(3)GLOBAL_UNCERTAINTY_ASSIGNED_CONTEXT((#{uncertain}))GLOBAL_UNIT_ASSIGNED_CONTEXT((#{length},#{angle},#{unit}))REPRESENTATION_CONTEXT('',''))")
  let list ← (fun st =>
    (String.intercalate (",") (st.mechanical_design_ids.map (fun id => s!"#{id}")), st) : M String)
  let _ ← addEntryM (s!"MECHANICAL_DESIGN_GEOMETRIC_PRESENTATION_REPRESENTATION('',({list}),#{full})")
  pure ()

/-- `get_ids_from_mechanical_part` (src/merge/utils.rs): all references of
the entry except the last (the per-file context); `none` models the panic
inside `get_references`. -/
def getIdsFromMechanicalPart (e : StepEntry) (ids : List Nat) : Option (List Nat) :=
  match getReferences e with
  | none => none
  | some [] => some ids
  | some entry_ids => some (ids ++ entry_ids.dropLast)

/-- `definition.trim_start()` on the entry text. -/
def defnTrimStart (e : StepEntry) : List Char :=
  e.definition.data.dropWhile Char.isWhitespace

/-- `starts_with` of a trimmed definition. -/
def startsWithKw (l : List Char) (kw : String) : Bool := kw.data.isPrefixOf l

/-- The body of the streaming loop of `StepMerger::load_and_add_step_entries`
for one entry: skip the application context/protocol entries, rewrite the
ids through `update_id`, track the maximum rewritten id, divert
mechanical-design entries to the id collector, and route everything else to
the root finder and the writer.  `none` models a panic. -/
def importStep (update_id : Nat → Nat) (acc : Nat × FindRootNodes × MergerState)
    (e : StepEntry) : Option (Nat × FindRootNodes × MergerState) :=
  let max_id := acc.1
  let frn := acc.2.1
  let st := acc.2.2
  let d := defnTrimStart e
  if startsWithKw d "APPLICATION_CONTEXT" ∨ startsWithKw d "APPLICATION_PROTOCOL_DEFINITION" then
    some acc
  else
    match updateReferences update_id e with
    | none => none
    | some new_entry =>
      let max_id := max max_id new_entry.id
      if startsWithKw d "MECHANICAL_DESIGN_GEOMETRIC_PRESENTATION_REPRESENTATION" then
        match getIdsFromMechanicalPart new_entry st.mechanical_design_ids with
        | none => none
        | some ids =>
            some (max_id, frn, { st with mechanical_design_ids := ids })
      else
        match frn.addEntry new_entry with
        | none => none
        | some frn =>
            some (max_id, frn, (addEntryFullM new_entry st).2)

/-- `StepMerger::load_and_add_step_entries`.  The `BufferedIterator` replay
of the Rust code (buffer while searching the `APPLICATION_CONTEXT` id, then
`reset` and stream every entry again) is modelled by two passes over the
pure entry list, as justified by the replay contract proved for
`BufferedIterator` above.  `none` models a panic inside
`update_references`/`get_references`; `Except.error` carries the recoverable
`AppContextMissing` failure, which occurs before any state change. -/
def loadAndAddStepEntries (st : MergerState) (entries : List StepEntry)
    (filename : String) : Option (Except MergeErr (List NodeStepIds × MergerState)) :=
  let app_context_id :=
    match entries.find? (fun e => startsWithKw (defnTrimStart e) "APPLICATION_CONTEXT") with
    | some e => e.id
    | none => 0
  if app_context_id = 0 then
    some (.error (.appContextMissing filename))
  else
    let id_offset := st.id_counter
    let update_id := fun id => if id = app_context_id then 1 else id + id_offset
    match entries.foldlM (importStep update_id) (0, emptyRootNodes, st) with
    | none => none
    | some (max_id, frn, st) =>
        some (.ok (frn.getRootNodes, { st with id_counter := max_id }))

/-- `StepMerger::load_and_add_step` minus the resolver-invocation bookkeeping:
resolve the link (a `none` resolver result models a failed
resolution or open failure of the reader) and stream the file's entries. -/
def loadAttempt (resolver : String → Option (List StepEntry)) (link : String)
    (st : MergerState) : Option (Except MergeErr (List NodeStepIds × MergerState)) :=
  match resolver link with
  | none => some (.error (.resolveFailed link))
  | some entries => loadAndAddStepEntries st entries link

/-- One iteration of the reference-loading loop of `StepMerger::merge`
(lines 203-223): skip nodes without a link or with an already-loaded link,
otherwise invoke the resolver and import the file; failures are logged and
skipped without touching the reference map. -/
def loadStep (resolver : String → Option (List StepEntry))
    (acc : List (String × List NodeStepIds) × MergerState) (node : Node) :
    Option (List (String × List NodeStepIds) × MergerState) :=
  match node.link with
  | none => some acc
  | some link =>
      if ((acc.1.find? (fun p => p.1 = link)).isSome) then some acc
      else
        let st := { acc.2 with invocations := acc.2.invocations ++ [link] }
        match loadAttempt resolver link st with
        | none => none
        | some (.error _) => some (acc.1, st)
        | some (.ok (roots, st')) => some (acc.1 ++ [(link, roots)], st')

/-- The parent–child relations between an assembly node and the imported
root nodes of its linked file (identity transform). -/
def importedRootRelations (reference_map : List (String × List NodeStepIds))
    (p : Node × NodeStepIds) : M Unit :=
  match p.1.link with
  | none => pure ()
  | some link =>
      match (reference_map.find? (fun q => q.1 = link)).map (·.2) with
      | none => pure ()
      | some roots =>
          roots.forM (fun child_ids =>
            createParentChildRelation p.1.label p.1.label p.2 child_ids identity_matrix)

/-- The synthesized part of `StepMerger::merge`: application context, the
default coordinate system, the per-node entries (collecting each node's
`NodeStepIds`), and the assembly parent–child relations. -/
def mergeSynth (assembly : Assembly) : M (List NodeStepIds) := do
  createAppContext
  let coord_id ← addEntryM ("CARTESIAN_POINT('',(0.,0.,0.))")
  let _ ← addEntryM ("DIRECTION('',(0.,0.,1.))")
  let _ ← addEntryM ("DIRECTION('',(1.,0.,0.))")
  let dcs ← addEntryM (s!"AXIS2_PLACEMENT_3D('',#{coord_id},#{coord_id + 1},#{coord_id + 2})")
  setDefaultCoordinateSystem dcs
  let node_step_ids ← assembly.nodes.foldlM
    (fun (acc : List NodeStepIds) node => do
      let ids ← createNode node
      pure (acc ++ [ids])) []
  (assembly.nodes.zip node_step_ids).forM (fun p =>
    p.1.children.forM (fun child => do
      let child_ids := node_step_ids.getD child ⟨0, 0⟩
      let child_node := assembly.nodes.getD child (Node.mk none ("") [] identity_matrix [])
      createParentChildRelation p.1.label child_node.label p.2 child_ids
        child_node.transform))
  pure node_step_ids

/-- `StepMerger::merge` composed with
`merge_assembly_structure_to_step_with_resolver`: the whole merge session.
The result is the final state (with the stream of written entries in
`output`); `none` models a panic.  The Rust `assembly.nodes[*child]` index
accesses are backed by the loader invariant that child indices are in range
(`Assembly::is_valid`), so the `getD` defaults are never taken on valid
input. -/
def merge (assembly : Assembly) (load_references : Bool)
    (resolver : String → Option (List StepEntry)) : Option MergerState :=
  let r := mergeSynth assembly initialMergerState
  let node_step_ids := r.1
  let st := r.2
  match (if load_references then
          match assembly.nodes.foldlM (loadStep resolver) ([], st) with
          | none => none
          | some (reference_map, st) =>
              some (((assembly.nodes.zip node_step_ids).forM
                (importedRootRelations reference_map)) st).2
         else some st) with
  | none => none
  | some st => some (writeMechanicalPartEntries st).2

/-- The ids of the session's output entries, in write order. -/
def outputIds (st : MergerState) : List Nat := st.output.map (·.id)

/-! ### Output-id contiguity of the synthesized entries -/

/-- The session invariant behind claim C3: the ids written so far are
exactly `1, 2, ..., id_counter`, in order. -/
def ContiguousIds (st : MergerState) : Prop :=
  outputIds st = List.range' 1 st.output.length ∧ st.id_counter = st.output.length

/-- An `M` action keeps the output ids contiguous. -/
def Preserves {α : Type} (m : M α) : Prop :=
  ∀ st, ContiguousIds st → ContiguousIds (m st).2

theorem preserves_pure {α : Type} (a : α) : Preserves (pure a : M α) := fun _ h => h

theorem preserves_bind {α β : Type} {m : M α} {k : α → M β}
    (hm : Preserves m) (hk : ∀ a, Preserves (k a)) : Preserves (m >>= k) :=
  fun st h => hk (m st).1 (m st).2 (hm st h)

theorem preserves_addEntryM (d : String) : Preserves (addEntryM d) := by
  intro st h
  obtain ⟨h1, h2⟩ := h
  have h1' : st.output.map (·.id) = List.range' 1 st.output.length := h1
  have hout : (addEntryM d st).2.output
      = st.output ++ [StepEntry.mk (st.id_counter + 1) d] := rfl
  have hcnt : (addEntryM d st).2.id_counter = st.id_counter + 1 := rfl
  constructor
  · show (addEntryM d st).2.output.map (·.id)
      = List.range' 1 (addEntryM d st).2.output.length
    rw [hout, List.map_append, List.length_append, h1', h2]
    have hr := @List.range'_concat 1 1 st.output.length
    simp only [one_mul] at hr
    simp [hr, Nat.add_comm]
  · show (addEntryM d st).2.id_counter = (addEntryM d st).2.output.length
    rw [hcnt, hout]
    simp [h2]

theorem preserves_forM {β : Type} (l : List β) (k : β → M Unit)
    (hk : ∀ x, Preserves (k x)) : Preserves (l.forM k) := by
  induction l with
  | nil => exact fun st h => h
  | cons x xs ih =>
    intro st h
    exact preserves_bind (hk x) (fun _ => ih) st h

theorem preserves_foldlM {γ β : Type} (g : γ → β → M γ)
    (hg : ∀ a b, Preserves (g a b)) :
    ∀ (l : List β) (a : γ), Preserves (l.foldlM g a) := by
  intro l
  induction l with
  | nil => exact fun a st h => h
  | cons b bs ih =>
    intro a st h
    exact preserves_bind (hg a b) (fun a' => ih a') st h

theorem preserves_createAppContext : Preserves createAppContext := by
  unfold createAppContext
  exact preserves_bind (preserves_addEntryM _) (fun _ =>
    preserves_bind (preserves_addEntryM _) (fun _ => preserves_pure _))

theorem preserves_createNode (node : Node) : Preserves (createNode node) := by
  unfold createNode
  repeat' first
    | exact preserves_pure _
    | (refine preserves_bind (preserves_addEntryM _) fun _ => ?_)
    | (refine preserves_bind (preserves_forM _ _ fun _ => ?_) fun _ => ?_)

theorem preserves_createParentChildRelation (pl cl : String) (pids cids : NodeStepIds)
    (t : List ℚ) : Preserves (createParentChildRelation pl cl pids cids t) := by
  unfold createParentChildRelation
  repeat' first
    | exact preserves_pure _
    | (refine preserves_bind (preserves_addEntryM _) fun _ => ?_)
    | (refine preserves_bind (fun st h => h) fun _ => ?_)

theorem preserves_writeMechanicalPartEntries : Preserves writeMechanicalPartEntries := by
  unfold writeMechanicalPartEntries
  repeat' first
    | exact preserves_pure _
    | (refine preserves_bind (preserves_addEntryM _) fun _ => ?_)
    | (refine preserves_bind (fun st h => h) fun _ => ?_)

theorem preserves_mergeSynth (assembly : Assembly) : Preserves (mergeSynth assembly) := by
  unfold mergeSynth
  refine preserves_bind preserves_createAppContext fun _ => ?_
  refine preserves_bind (preserves_addEntryM _) fun _ => ?_
  refine preserves_bind (preserves_addEntryM _) fun _ => ?_
  refine preserves_bind (preserves_addEntryM _) fun _ => ?_
  refine preserves_bind (preserves_addEntryM _) fun _ => ?_
  refine preserves_bind (fun st h => h) fun _ => ?_
  refine preserves_bind (preserves_foldlM _ (fun a b => ?_) _ _) fun nsi => ?_
  · exact preserves_bind (preserves_createNode b) (fun _ => preserves_pure _)
  · refine preserves_bind (preserves_forM _ _ fun p => ?_) fun _ => ?_
    · exact preserves_forM _ _ (fun child =>
        preserves_createParentChildRelation _ _ _ _ _)
    · exact preserves_pure _

theorem contiguous_initial : ContiguousIds initialMergerState := ⟨rfl, rfl⟩

/-! ## Claims C3 and C4 -/

/-- C3 (counterexample): one assembly node linking a resolvable file whose
entries are `#1 = APPLICATION_CONTEXT('c')` and `#5 = FOO('x')`.  The import
shifts `#5` by the current id counter 24, so the session writes id 29 right
after id 24: the output ids have a gap and are not `1, 2, ..., N`. -/
theorem C3_counterexample :
    (merge ⟨[⟨some ("a.stp"), "A", [], identity_matrix, []⟩]⟩ true
        (fun link => if link = "a.stp"
          then some [⟨1, "APPLICATION_CONTEXT('c')"⟩, ⟨5, "FOO('x')"⟩]
          else none)).map outputIds
      = some [1, 2, 3, 4, 5, 6, 7, 8, 9, 10, 11, 12, 13, 14, 15, 16, 17, 18, 19, 20,
              21, 22, 23, 24, 29, 30, 31, 32, 33, 34, 35, 36, 37, 38] ∧
    [1, 2, 3, 4, 5, 6, 7, 8, 9, 10, 11, 12, 13, 14, 15, 16, 17, 18, 19, 20,
     21, 22, 23, 24, 29, 30, 31, 32, 33, 34, 35, 36, 37, 38]
      ≠ List.range' 1 34 := by
  constructor
  · rfl
  · decide

/-- C3 (amended): when no external references are loaded
(`load_references = false`), the merge driver synthesizes every output entry
itself and the output ids are strictly increasing by 1 from 1 with no gaps
(`1, 2, ..., N`); an imported file's entries keep their own ids shifted by
the session offset, which can leave gaps (see the counterexample). -/
theorem C3_theorem (assembly : Assembly)
    (resolver : String → Option (List StepEntry)) :
    ∃ st, merge assembly false resolver = some st ∧
      outputIds st = List.range' 1 st.output.length ∧
      st.id_counter = st.output.length := by
  refine ⟨(writeMechanicalPartEntries (mergeSynth assembly initialMergerState).2).2,
    rfl, ?_⟩
  exact preserves_writeMechanicalPartEntries _
    (preserves_mergeSynth assembly initialMergerState contiguous_initial)

/-- C4 (counterexample): for the empty assembly with `load_references =
false` the data section holds 15 entries, not the 14 the claim's enumeration
(2 + 4 + an 8-entry tail) amounts to: the tail actually has 9 entries. -/
theorem C4_counterexample :
    (merge ⟨[]⟩ false (fun _ => none)).map (fun st => st.output.length) = some 15 ∧
    (15 : Nat) ≠ 14 := by
  constructor
  · rfl
  · decide

/-- C4 (amended): for the empty assembly with `load_references = false` the
output data section contains exactly: id 1 = `APPLICATION_CONTEXT(...)`,
id 2 = `APPLICATION_PROTOCOL_DEFINITION(..., #1)`, the 4-entry default
coordinate system at ids 3-6, and the 9-entry mechanical-design aggregator
tail (seven unit/measure entries, one combined
`GEOMETRIC_REPRESENTATION_CONTEXT`, and one final
`MECHANICAL_DESIGN_GEOMETRIC_PRESENTATION_REPRESENTATION` with an empty
aggregated reference list), in that order and nothing else. -/
theorem C4_theorem (resolver : String → Option (List StepEntry)) :
    (merge ⟨[]⟩ false resolver).map (·.output) = some
      [⟨1, "APPLICATION_CONTEXT('Configuration controlled 3D designs of mechanical parts and assemblies')"⟩,
       ⟨2, "APPLICATION_PROTOCOL_DEFINITION('international standard', 'configuration_control_3d_design_ed2_mim',2004, #1)"⟩,
       ⟨3, "CARTESIAN_POINT('',(0.,0.,0.))"⟩,
       ⟨4, "DIRECTION('',(0.,0.,1.))"⟩,
       ⟨5, "DIRECTION('',(1.,0.,0.))"⟩,
       ⟨6, "AXIS2_PLACEMENT_3D('',#3,#4,#5)"⟩,
       ⟨7, "(LENGTH_UNIT()NAMED_UNIT(*)SI_UNIT(.MILLI.,.METRE.))"⟩,
       ⟨8, "(NAMED_UNIT(*)PLANE_ANGLE_UNIT()SI_UNIT($,.RADIAN.))"⟩,
       ⟨9, "PLANE_ANGLE_MEASURE_WITH_UNIT(PLANE_ANGLE_MEASURE(1.745329251994E-02),#8)"⟩,
       ⟨10, "DIMENSIONAL_EXPONENTS(0.,0.,0.,0.,0.,0.,0.)"⟩,
       ⟨11, "(CONVERSION_BASED_UNIT('DEGREE',#10)NAMED_UNIT(#101)PLANE_ANGLE_UNIT())"⟩,
       ⟨12, "(NAMED_UNIT(*)SI_UNIT($,.STERADIAN.)SOLID_ANGLE_UNIT())"⟩,
       ⟨13, "UNCERTAINTY_MEASURE_WITH_UNIT(LENGTH_MEASURE(10.E-03),#7,'distance_accuracy_value','Confusion accuracy')"⟩,
       ⟨14, "(GEOMETRIC_REPRESENTATION_CONTEXT(3)GLOBAL_UNCERTAINTY_ASSIGNED_CONTEXT((#13))GLOBAL_UNIT_ASSIGNED_CONTEXT((#7,#11,#12))REPRESENTATION_CONTEXT('',''))"⟩,
       ⟨15, "MECHANICAL_DESIGN_GEOMETRIC_PRESENTATION_REPRESENTATION('',(),#14)"⟩] := rfl

/-! ## Claim C5: resolver invocations -/

/-- An `M` action leaves the resolver-invocation log unchanged (every writer
action does; only the reference-loading loop appends to it). -/
def KeepsInvocations {α : Type} (m : M α) : Prop :=
  ∀ st, ((m st).2).invocations = st.invocations

theorem keepsInv_pure {α : Type} (a : α) : KeepsInvocations (pure a : M α) := fun _ => rfl

theorem keepsInv_bind {α β : Type} {m : M α} {k : α → M β}
    (hm : KeepsInvocations m) (hk : ∀ a, KeepsInvocations (k a)) :
    KeepsInvocations (m >>= k) := fun st => (hk (m st).1 (m st).2).trans (hm st)

theorem keepsInv_addEntryM (d : String) : KeepsInvocations (addEntryM d) := fun _ => rfl

theorem keepsInv_forM {β : Type} (l : List β) (k : β → M Unit)
    (hk : ∀ x, KeepsInvocations (k x)) : KeepsInvocations (l.forM k) := by
  induction l with
  | nil => exact fun _ => rfl
  | cons x xs ih => exact fun st => keepsInv_bind (hk x) (fun _ => ih) st

theorem keepsInv_foldlM {γ β : Type} (g : γ → β → M γ)
    (hg : ∀ a b, KeepsInvocations (g a b)) :
    ∀ (l : List β) (a : γ), KeepsInvocations (l.foldlM g a) := by
  intro l
  induction l with
  | nil => exact fun _ _ => rfl
  | cons b bs ih => exact fun a st => keepsInv_bind (hg a b) (fun a' => ih a') st

theorem keepsInv_createAppContext : KeepsInvocations createAppContext := by
  unfold createAppContext
  exact keepsInv_bind (keepsInv_addEntryM _) (fun _ =>
    keepsInv_bind (keepsInv_addEntryM _) (fun _ => keepsInv_pure _))

theorem keepsInv_createNode (node : Node) : KeepsInvocations (createNode node) := by
  unfold createNode
  repeat' first
    | exact keepsInv_pure _
    | (refine keepsInv_bind (keepsInv_addEntryM _) fun _ => ?_)
    | (refine keepsInv_bind (keepsInv_forM _ _ fun _ => ?_) fun _ => ?_)

theorem keepsInv_createParentChildRelation (pl cl : String) (pids cids : NodeStepIds)
    (t : List ℚ) : KeepsInvocations (createParentChildRelation pl cl pids cids t) := by
  unfold createParentChildRelation
  repeat' first
    | exact keepsInv_pure _
    | (refine keepsInv_bind (keepsInv_addEntryM _) fun _ => ?_)
    | (refine keepsInv_bind (fun st => rfl) fun _ => ?_)

theorem keepsInv_writeMechanicalPartEntries : KeepsInvocations writeMechanicalPartEntries := by
  unfold writeMechanicalPartEntries
  repeat' first
    | exact keepsInv_pure _
    | (refine keepsInv_bind (keepsInv_addEntryM _) fun _ => ?_)
    | (refine keepsInv_bind (fun st => rfl) fun _ => ?_)

theorem keepsInv_mergeSynth (assembly : Assembly) : KeepsInvocations (mergeSynth assembly) := by
  unfold mergeSynth
  refine keepsInv_bind keepsInv_createAppContext fun _ => ?_
  refine keepsInv_bind (keepsInv_addEntryM _) fun _ => ?_
  refine keepsInv_bind (keepsInv_addEntryM _) fun _ => ?_
  refine keepsInv_bind (keepsInv_addEntryM _) fun _ => ?_
  refine keepsInv_bind (keepsInv_addEntryM _) fun _ => ?_
  refine keepsInv_bind (fun st => rfl) fun _ => ?_
  refine keepsInv_bind (keepsInv_foldlM _ (fun a b => ?_) _ _) fun nsi => ?_
  · exact keepsInv_bind (keepsInv_createNode b) (fun _ => keepsInv_pure _)
  · refine keepsInv_bind (keepsInv_forM _ _ fun p => ?_) fun _ => ?_
    · exact keepsInv_forM _ _ (fun child => keepsInv_createParentChildRelation _ _ _ _ _)
    · exact keepsInv_pure _

theorem keepsInv_importedRootRelations (rm : List (String × List NodeStepIds))
    (p : Node × NodeStepIds) : KeepsInvocations (importedRootRelations rm p) := by
  unfold importedRootRelations
  split
  · exact keepsInv_pure _
  · split
    · exact keepsInv_pure _
    · exact keepsInv_forM _ _ (fun child => keepsInv_createParentChildRelation _ _ _ _ _)

/-- One import-loop step never touches the invocation log. -/
theorem importStep_invocations (u : Nat → Nat) (acc res : Nat × FindRootNodes × MergerState)
    (e : StepEntry) (h : importStep u acc e = some res) :
    res.2.2.invocations = acc.2.2.invocations := by
  unfold importStep at h
  dsimp only at h
  split_ifs at h
  · obtain rfl := Option.some_inj.mp h
    rfl
  · split at h
    · exact Option.noConfusion h
    · split at h
      · exact Option.noConfusion h
      · obtain rfl := Option.some_inj.mp h
        rfl
  · split at h
    · exact Option.noConfusion h
    · split at h
      · exact Option.noConfusion h
      · obtain rfl := Option.some_inj.mp h
        rfl

theorem importFold_invocations (u : Nat → Nat) :
    ∀ (entries : List StepEntry) (acc res : Nat × FindRootNodes × MergerState),
      entries.foldlM (importStep u) acc = some res →
      res.2.2.invocations = acc.2.2.invocations := by
  intro entries
  induction entries with
  | nil =>
    intro acc res h
    simp only [List.foldlM_nil, Option.pure_def, Option.some_inj] at h
    subst h; rfl
  | cons e es ih =>
    intro acc res h
    simp only [List.foldlM_cons] at h
    cases hstep : importStep u acc e with
    | none => rw [hstep] at h; exact Option.noConfusion h
    | some acc₁ =>
      rw [hstep] at h
      exact (ih acc₁ res h).trans (importStep_invocations u acc acc₁ e hstep)

/-- A successful per-file import leaves the invocation log unchanged. -/
theorem loadAndAdd_invocations (st : MergerState) (es : List StepEntry) (fn : String)
    (roots : List NodeStepIds) (st' : MergerState)
    (h : loadAndAddStepEntries st es fn = some (Except.ok (roots, st'))) :
    st'.invocations = st.invocations := by
  unfold loadAndAddStepEntries at h
  dsimp only at h
  split_ifs at h
  · simp at h
  · split at h
    · exact Option.noConfusion h
    · rename_i max_id frn st2 heq
      simp only [Option.some_inj, Except.ok.injEq, Prod.mk.injEq] at h
      obtain ⟨-, h2⟩ := h
      subst h2
      exact importFold_invocations _ es _ _ heq

theorem loadAttempt_invocations (resolver : String → Option (List StepEntry))
    (link : String) (st : MergerState) (roots : List NodeStepIds) (st' : MergerState)
    (h : loadAttempt resolver link st = some (Except.ok (roots, st'))) :
    st'.invocations = st.invocations := by
  unfold loadAttempt at h
  split at h
  · simp at h
  · exact loadAndAdd_invocations _ _ _ _ _ h

/-- The counting invariant of the reference-loading loop: a link has been
passed to the resolver at most once if it is already in the reference map and
not at all otherwise. -/
def linkBound (link : String) (acc : List (String × List NodeStepIds) × MergerState) : Prop :=
  acc.2.invocations.count link ≤
    (if ((acc.1.find? (fun p => p.1 = link)).isSome) then 1 else 0)

theorem loadStep_bound (resolver : String → Option (List StepEntry)) (link : String)
    (hsucc : ∀ st, ∃ roots st', loadAttempt resolver link st = some (Except.ok (roots, st')))
    (acc acc₁ : List (String × List NodeStepIds) × MergerState) (n : Node)
    (h : loadStep resolver acc n = some acc₁) (hb : linkBound link acc) :
    linkBound link acc₁ := by
  unfold loadStep at h
  cases hl : n.link with
  | none =>
    rw [hl] at h
    obtain rfl := Option.some_inj.mp h
    exact hb
  | some l =>
    rw [hl] at h
    dsimp only at h
    by_cases hmem : (acc.1.find? (fun p => p.1 = l)).isSome = true
    · rw [if_pos hmem] at h
      obtain rfl := Option.some_inj.mp h
      exact hb
    · rw [if_neg hmem] at h
      have hnone : acc.1.find? (fun p => p.1 = l) = none :=
        Option.not_isSome_iff_eq_none.mp (by simpa using hmem)
      by_cases hll : l = link
      · subst hll
        obtain ⟨roots, st'', heq⟩ :=
          hsucc { acc.2 with invocations := acc.2.invocations ++ [l] }
        rw [heq] at h
        obtain rfl := Option.some_inj.mp h
        unfold linkBound
        have hinv := loadAttempt_invocations resolver l _ roots st'' heq
        show st''.invocations.count l ≤ _
        rw [hinv]
        have hfind : (((acc.1 ++ [(l, roots)]).find? (fun p => p.1 = l)).isSome) = true := by
          rw [List.find?_append, hnone]
          simp [List.find?]
        rw [if_pos hfind]
        have hcnt0 : acc.2.invocations.count l = 0 := by
          unfold linkBound at hb
          rw [if_neg hmem] at hb
          omega
        show (acc.2.invocations ++ [l]).count l ≤ 1
        rw [List.count_append, hcnt0]
        simp
      · cases hla : loadAttempt resolver l
          { acc.2 with invocations := acc.2.invocations ++ [l] } with
        | none => rw [hla] at h; exact Option.noConfusion h
        | some r =>
          rw [hla] at h
          have hcnt : (acc.2.invocations ++ [l]).count link = acc.2.invocations.count link := by
            rw [List.count_append]
            simp [List.count_singleton', hll]
          match r with
          | .error e =>
            obtain rfl := Option.some_inj.mp h
            unfold linkBound at hb ⊢
            show (acc.2.invocations ++ [l]).count link ≤ _
            rw [hcnt]
            exact hb
          | .ok (roots, st'') =>
            obtain rfl := Option.some_inj.mp h
            have hinv := loadAttempt_invocations resolver l _ roots st'' hla
            unfold linkBound at hb ⊢
            show st''.invocations.count link ≤ _
            rw [hinv, hcnt]
            have hsame : ((acc.1 ++ [(l, roots)]).find? (fun p => p.1 = link)).isSome
                = (acc.1.find? (fun p => p.1 = link)).isSome := by
              rw [List.find?_append]
              cases hfa : acc.1.find? (fun p => p.1 = link) with
              | some q => simp
              | none => simp [List.find?, hll]
            rw [hsame]
            exact hb

theorem loadFold_count (resolver : String → Option (List StepEntry)) (link : String)
    (hsucc : ∀ st, ∃ roots st', loadAttempt resolver link st = some (Except.ok (roots, st'))) :
    ∀ (nodes : List Node) (acc : List (String × List NodeStepIds) × MergerState),
      linkBound link acc →
      ∀ res, nodes.foldlM (loadStep resolver) acc = some res →
        res.2.invocations.count link ≤ 1 := by
  intro nodes
  induction nodes with
  | nil =>
    intro acc hb res h
    simp only [List.foldlM_nil, Option.pure_def, Option.some_inj] at h
    subst h
    unfold linkBound at hb
    split at hb
    · exact hb
    · omega
  | cons n ns ih =>
    intro acc hb res h
    simp only [List.foldlM_cons] at h
    cases hstep : loadStep resolver acc n with
    | none => rw [hstep] at h; exact Option.noConfusion h
    | some acc₁ =>
      rw [hstep] at h
      exact ih acc₁ (loadStep_bound resolver link hsucc acc acc₁ n hstep hb) res h

/-- `merge` with `load_references = true`, unfolded one level. -/
theorem merge_true_eq (assembly : Assembly) (resolver : String → Option (List StepEntry)) :
    merge assembly true resolver =
      (match assembly.nodes.foldlM (loadStep resolver)
          ([], (mergeSynth assembly initialMergerState).2) with
       | none => none
       | some (reference_map, st) =>
           some (writeMechanicalPartEntries
             (((assembly.nodes.zip (mergeSynth assembly initialMergerState).1).forM
               (importedRootRelations reference_map)) st).2).2) := by
  unfold merge
  dsimp only
  cases hfold : assembly.nodes.foldlM (loadStep resolver)
      ([], (mergeSynth assembly initialMergerState).2) with
  | none => rfl
  | some p =>
    obtain ⟨rm, st⟩ := p
    rfl

/-- C5 (counterexample): two assembly nodes share the link `"m.stp"` and the
resolver fails on it.  A failed load is not recorded in the reference map, so
the second node invokes the resolver for the same link again: two invocations
for one distinct link. -/
theorem C5_counterexample :
    (merge ⟨[⟨some ("m.stp"), "A", [], identity_matrix, []⟩,
             ⟨some ("m.stp"), "B", [], identity_matrix, []⟩]⟩ true
        (fun _ => none)).map (·.invocations) = some ["m.stp", "m.stp"] ∧
    ¬ ((["m.stp", "m.stp"].count ("m.stp")) ≤ 1) := by
  constructor
  · rfl
  · decide

/-- C5 (amended): during one merge with `load_references = true`, the
resolver is invoked at most once for every distinct link whose resolution
and import always succeed; a link whose load fails is not inserted into the
reference map and is re-resolved at every later node bearing it (see the
counterexample). -/
theorem C5_theorem (assembly : Assembly) (resolver : String → Option (List StepEntry))
    (link : String)
    (hsucc : ∀ st, ∃ roots st', loadAttempt resolver link st = some (Except.ok (roots, st'))) :
    ((merge assembly true resolver).map (fun st => st.invocations.count link)).getD 0 ≤ 1 := by
  rw [merge_true_eq]
  cases hfold : assembly.nodes.foldlM (loadStep resolver)
      ([], (mergeSynth assembly initialMergerState).2) with
  | none => simp
  | some p =>
    obtain ⟨rm, st₁⟩ := p
    simp only [Option.map_some', Option.getD_some]
    have hkeep : ((writeMechanicalPartEntries
        (((assembly.nodes.zip (mergeSynth assembly initialMergerState).1).forM
          (importedRootRelations rm)) st₁).2).2).invocations = st₁.invocations :=
      (keepsInv_writeMechanicalPartEntries _).trans
        (keepsInv_forM _ _ (fun p => keepsInv_importedRootRelations rm p) st₁)
    rw [hkeep]
    have hinit : linkBound link ([], (mergeSynth assembly initialMergerState).2) := by
      unfold linkBound
      have h0 : ((mergeSynth assembly initialMergerState).2).invocations = [] :=
        keepsInv_mergeSynth assembly initialMergerState
      rw [h0]
      simp [List.find?]
    exact loadFold_count resolver link hsucc assembly.nodes _ hinit (rm, st₁) hfold

/-- C5 (witness): the amended statement on a merge of two nodes sharing the
resolvable link `"r.stp"`. -/
theorem C5_witness :
    ((merge ⟨[⟨some ("r.stp"), "A", [], identity_matrix, []⟩,
              ⟨some ("r.stp"), "B", [], identity_matrix, []⟩]⟩ true
        (fun link => if link = "r.stp" then some [⟨1, "APPLICATION_CONTEXT('c')"⟩] else none)).map
      (fun st => st.invocations.count ("r.stp"))).getD 0 ≤ 1 :=
  C5_theorem _ _ ("r.stp")
    (fun st => ⟨[], { st with id_counter := 0 }, rfl⟩)

/-! ## The STEP entry readers

Two readers exist: `plain_parser` (a hand-written character tokenizer and
parser) and `logos_parser` (a `logos`-derived maximal-munch lexer).  The
crate's active `STEPReader` alias is the logos one.  The `logos_parser`
streaming `TokenIterator` over `&str` used by its `mod.rs` is absent from the
sources (only a `Read`-based variant is present); its full-input semantics is
reconstructed here: the lexer yields tokens until the input ends or errors,
`logos::skip` drops whitespace and comment matches, and a parser failure in
`parse_element` leads to a buffer-grow that hits the end of input, so any
parser error surfaces as `EndOfInput`. -/

/-- Rust `char::is_whitespace`: the Unicode `White_Space` code points. -/
def rustIsWhitespace (c : Char) : Bool :=
  let n := c.toNat
  (9 ≤ n && n ≤ 13) || n == 32 || n == 133 || n == 160 || n == 5760 ||
    (8192 ≤ n && n ≤ 8202) || n == 8232 || n == 8233 || n == 8239 ||
    n == 8287 || n == 12288

/-- The logos whitespace class `[ \t\r\n\f]`. -/
def logosWsChar (c : Char) : Bool :=
  c == ' ' || c == Char.ofNat 9 || c == Char.ofNat 13 || c == Char.ofNat 10 ||
    c == Char.ofNat 12

/-- The character class of the `Definition` regex `[^\s;='/]+`. -/
def defChar (c : Char) : Bool :=
  !rustIsWhitespace c && !(c == ';') && !(c == '=') && !(c == quoteChar) && !(c == '/')

/-- Rust `char::is_ascii_alphabetic` (the ranges `A`-`Z` and `a`-`z`). -/
def asciiAlpha (c : Char) : Bool :=
  (65 ≤ c.toNat && c.toNat ≤ 90) || (97 ≤ c.toNat && c.toNat ≤ 122)

/-- Rust `char::is_ascii_digit` (the range `0`-`9`). -/
def asciiDigit (c : Char) : Bool := 48 ≤ c.toNat && c.toNat ≤ 57

/-- The token enum of `logos_parser/stream_lexer.rs`.  `comments` and
`whitespace` carry `logos::skip` in the source and are never emitted by the
lexer stream. -/
inductive LTok where
  | comments
  | whitespace
  | eq
  | sem
  | reference (n : Nat)
  | header
  | data
  | endsec
  | startTag
  | endTag
  | str (s : String)
  | defn (s : String)
deriving DecidableEq

/-- Scanner for the comment regex `\/\*([^*]|\*[^\/])*\*\/` after the
opening `/*` has been consumed; `n` counts the consumed characters, and the
returned value is the total match length.  A star pairs with the next
character unless that character closes the comment. -/
def commentAux : List Char → Nat → Option Nat
  | [], _ => none
  | c :: rest, n =>
    if c = '*' then
      match rest with
      | [] => none
      | d :: rest' => if d = '/' then some (n + 2) else commentAux rest' (n + 2)
    else commentAux rest (n + 1)

/-- Length of the comment-token match at the start of the input, if any. -/
def commentLen : List Char → Option Nat
  | c1 :: c2 :: rest => if c1 = '/' && c2 = '*' then commentAux rest 2 else none
  | _ => none

/-- Length of the string-token match `\'[^']*\'` at the start of the input. -/
def stringLen (cs : List Char) : Option Nat :=
  match cs with
  | c :: rest =>
    if c = quoteChar then
      let inner := rest.takeWhile (fun d => !(d == quoteChar))
      if inner.length < rest.length then some (inner.length + 2) else none
    else none
  | [] => none

/-- Decimal value of a digit run (`str::parse::<u64>` on digits). -/
def digitsVal (ds : List Char) : Nat := ds.foldl (fun n c => n * 10 + digitVal c) 0

/-- Match of the reference regex `[#][\s]*[1-9][0-9]*`: length and the parsed
value `lex.slice()[1..].trim_start().parse::<u64>()`. -/
def refMatch (cs : List Char) : Option (Nat × Nat) :=
  match cs with
  | c :: rest =>
    if c = '#' then
      let w := rest.takeWhile rustIsWhitespace
      let ds := rest.drop w.length
      match ds with
      | d :: _ =>
        if '1' ≤ d && d ≤ '9' then
          let digits := ds.takeWhile asciiDigit
          some (1 + w.length + digits.length, digitsVal digits)
        else none
      | [] => none
    else none
  | [] => none

/-- The literal keyword tokens of the lexer. -/
def kwList : List (List Char × LTok) :=
  [("END-ISO-10303-21".data, LTok.endTag), ("ISO-10303-21".data, LTok.startTag),
   ("HEADER".data, LTok.header), ("ENDSEC".data, LTok.endsec),
   ("DATA".data, LTok.data)]

/-- Keyword match at the start of the input (at most one keyword can match). -/
def kwMatch (cs : List Char) : Option (Nat × LTok) :=
  (kwList.find? (fun p => p.1.isPrefixOf cs)).map (fun p => (p.1.length, p.2))

/-- One step of the logos lexer: the longest match wins, and on equal length
the literal tokens and the `Reference` regex take priority over `Definition`
(logos priorities).  `none` is a lexer error or the end of the input. -/
def lexOne (cs : List Char) : Option (LTok × Nat) :=
  match commentLen cs with
  | some n => some (LTok.comments, n)
  | none =>
    let w := (cs.takeWhile logosWsChar).length
    if 0 < w then some (LTok.whitespace, w)
    else
      match cs with
      | [] => none
      | c :: rest =>
        if c = '=' then some (LTok.eq, 1)
        else if c = ';' then some (LTok.sem, 1)
        else if c = quoteChar then
          match stringLen cs with
          | some n => some (LTok.str (String.mk (rest.take (n - 2))), n)
          | none => none
        else
          let dl := (cs.takeWhile defChar).length
          match refMatch cs with
          | some (n, v) =>
            if n < dl then some (LTok.defn (String.mk (cs.take dl)), dl)
            else some (LTok.reference v, n)
          | none =>
            match kwMatch cs with
            | some (n, t) =>
              if n < dl then some (LTok.defn (String.mk (cs.take dl)), dl)
              else some (t, n)
            | none =>
              if 0 < dl then some (LTok.defn (String.mk (cs.take dl)), dl) else none

/-- The token stream: repeated `lexOne`, with `logos::skip` dropping
whitespace and comment matches; a lexer error or the end of input ends the
stream.  The fuel is only a termination device; `lexOne` always consumes at
least one character. -/
def lexListAux : Nat → List Char → List LTok
  | 0, _ => []
  | fuel + 1, cs =>
    match lexOne cs with
    | none => []
    | some (LTok.comments, n) => lexListAux fuel (cs.drop n)
    | some (LTok.whitespace, n) => lexListAux fuel (cs.drop n)
    | some (t, n) => t :: lexListAux fuel (cs.drop n)

def lexList (cs : List Char) : List LTok := lexListAux cs.length cs

/-- The error kinds of `error.rs` that the readers can produce.  The textual
payloads of `InvalidFormat` are abbreviated; no claim depends on them. -/
inductive PErr where
  | endOfInput
  | noDataSection
  | unexpectedToken (expected got : String)
  | unexpectedIdentifier (s : String)
  | invalidFormat (msg : String)
deriving DecidableEq

/-- The `Display` rendering of a lexer token (used in error payloads). -/
def ltokText : LTok → String
  | LTok.comments => "/**/"
  | LTok.whitespace => " "
  | LTok.eq => "="
  | LTok.sem => ";"
  | LTok.reference n => String.mk ('#' :: natDigits n)
  | LTok.header => "HEADER"
  | LTok.data => "DATA"
  | LTok.endsec => "ENDSEC"
  | LTok.startTag => "ISO-10303-21"
  | LTok.endTag => "END-ISO-10303-21"
  | LTok.str s => String.mk (quoteChar :: (s.data ++ [quoteChar]))
  | LTok.defn s => s

/-- `skip_whitespace_tokens` of `logos_parser/mod.rs` over the token stream.
Whitespace and comment tokens never occur in the stream (`logos::skip`), so
this is the identity in practice, but the loop is kept as in the source. -/
def skipWsToksL : List LTok → List LTok
  | LTok.whitespace :: ts => skipWsToksL ts
  | LTok.comments :: ts => skipWsToksL ts
  | ts => ts

/-- The parser closure of `parse_iso_line` (logos reader). -/
def isoLineL (ts : List LTok) : Except PErr (Unit × List LTok) :=
  match skipWsToksL ts with
  | LTok.startTag :: ts =>
    (match skipWsToksL ts with
     | LTok.sem :: ts => .ok ((), ts)
     | t :: _ => .error (.unexpectedToken ";" (ltokText t))
     | [] => .error .endOfInput)
  | t :: _ => .error (.unexpectedToken "ISO-10303-21" (ltokText t))
  | [] => .error .endOfInput

/-- The parser closure of `find_data_section` (logos reader): skip tokens
until `Data`, then expect a semicolon. -/
def findDataL : List LTok → Except PErr (Unit × List LTok)
  | [] => .error .noDataSection
  | LTok.data :: ts =>
    (match skipWsToksL ts with
     | LTok.sem :: ts => .ok ((), ts)
     | t :: _ => .error (.unexpectedToken ";" (ltokText t))
     | [] => .error .endOfInput)
  | _ :: ts => findDataL ts

/-- The definition-collection loop of `read_next_entry` (logos reader).  The
whitespace and comment arms are kept from the source although those tokens
never reach the stream. -/
def collectBody : List LTok → List Char → Except PErr (List Char × List LTok)
  | [], _ => .error .endOfInput
  | LTok.sem :: ts, acc => .ok (acc, ts)
  | LTok.whitespace :: ts, acc => collectBody ts (acc ++ [' '])
  | LTok.comments :: ts, acc => collectBody ts acc
  | LTok.defn d :: ts, acc => collectBody ts (acc ++ d.data)
  | LTok.eq :: ts, acc => collectBody ts (acc ++ ['='])
  | LTok.str s :: ts, acc => collectBody ts (acc ++ quoteChar :: (s.data ++ [quoteChar]))
  | LTok.reference r :: ts, acc => collectBody ts (acc ++ '#' :: natDigits r)
  | t :: _, _ => .error (.unexpectedToken ";" (ltokText t))

/-- The parser closure of `read_next_entry` (logos reader). -/
def readNextEntryL (ts : List LTok) : Except PErr (Option StepEntry × List LTok) :=
  match skipWsToksL ts with
  | LTok.reference id :: ts =>
    (match skipWsToksL ts with
     | LTok.eq :: ts =>
       (match collectBody ts [] with
        | .ok (d, ts) => .ok (some ⟨id, String.mk d⟩, ts)
        | .error e => .error e)
     | t :: _ => .error (.unexpectedToken "=" (ltokText t))
     | [] => .error .endOfInput)
  | LTok.endsec :: ts => .ok (none, ts)
  | t :: _ => .error (.unexpectedToken "#" (ltokText t))
  | [] => .error .endOfInput

/-- `parse_element` in the full-input limit: a success stands; any parser
failure makes the reader grow its buffer, which at the end of the input
fails with `EndOfInput`. -/
def parseElementL {α : Type} (p : List LTok → Except PErr (α × List LTok))
    (ts : List LTok) : Except PErr (α × List LTok) :=
  match p ts with
  | .ok r => .ok r
  | .error _ => .error .endOfInput

/-- `STEPReader::new` of the logos reader over an already-lexed stream:
`parse_iso_line` then `find_data_section`. -/
def logosNewToks (ts : List LTok) : Except PErr (List LTok) :=
  match parseElementL isoLineL ts with
  | .error e => .error e
  | .ok (_, ts) =>
    match parseElementL findDataL ts with
    | .error e => .error e
    | .ok (_, ts) => .ok ts

/-- Draining the logos reader iterator: entries until `Ok(None)` at `ENDSEC`,
or the first error. -/
def logosReadAllAux : Nat → List LTok → List StepEntry × Option PErr
  | 0, _ => ([], some .endOfInput)
  | fuel + 1, ts =>
    match parseElementL readNextEntryL ts with
    | .ok (none, _) => ([], none)
    | .ok (some e, ts) =>
      let (es, r) := logosReadAllAux fuel ts
      (e :: es, r)
    | .error e => ([], some e)

def logosNew (input : String) : Except PErr (List LTok) := logosNewToks (lexList input.data)

/-- The logos reader end to end: construct the reader, then drain it. -/
def logosRun (input : String) : List StepEntry × Option PErr :=
  match logosNew input with
  | .error e => ([], some e)
  | .ok ts => logosReadAllAux (ts.length + 1) ts

/-! ### The plain reader

`plain_parser` tokenizes characters into whitespace / comment / character
tokens while tracking whether the position is inside a single-quoted string
(`tokenizer.rs`), and parses entries with the `Parser` combinators
(`read_string`, `read_exact_sequence`, `read_u64`, `skip_until`; the
`plain_parser/parser.rs` file is absent from the sources and is
reconstructed from the identical `step/parser/parser.rs`, with the error
constructors used by `plain_parser/mod.rs`).  The parser state is the
`is_inside_string` flag plus the remaining characters; `peek` is modelled by
computing the next token without advancing. -/

/-- The token enum of `plain_parser/tokenizer.rs`. -/
inductive PTok where
  | whitespace
  | comment
  | character (c : Char)
deriving DecidableEq

/-- The comment loop of `Tokenizer::next` after `/` with a peeked `*`:
repeatedly skip to a star (failing with `EndOfInput` at the end of input),
consume it, and finish when the next character closes the comment. -/
def pCommentAux : List Char → Except PErr (List Char)
  | [] => .error .endOfInput
  | '*' :: rest =>
    (match rest with
     | '/' :: rest' => .ok rest'
     | _ => pCommentAux rest)
  | _ :: rest => pCommentAux rest

/-- One step of the tokenizer: quote handling, in-string pass-through,
whitespace runs, comments, plain characters.  `.ok none` is the end of the
stream. -/
def tokNext : Bool → List Char → Except PErr (Option (PTok × Bool × List Char))
  | _, [] => .ok none
  | inStr, c :: rest =>
    if c = quoteChar then .ok (some (PTok.character quoteChar, !inStr, rest))
    else if inStr then .ok (some (PTok.character c, inStr, rest))
    else if rustIsWhitespace c then
      .ok (some (PTok.whitespace, inStr, rest.dropWhile rustIsWhitespace))
    else if c = '/' then
      match rest with
      | '*' :: _ =>
        (match pCommentAux rest with
         | .ok rest' => .ok (some (PTok.comment, inStr, rest'))
         | .error e => .error e)
      | _ => .ok (some (PTok.character '/', inStr, rest))
    else .ok (some (PTok.character c, inStr, rest))

/-- `Parser::skip_whitespace_tokens`: consume whitespace and comment tokens;
a peeked error or character stops the loop without consuming. -/
def skipWsToks : Nat → Bool × List Char → Bool × List Char
  | 0, st => st
  | fuel + 1, st =>
    match tokNext st.1 st.2 with
    | .ok (some (PTok.whitespace, b, rest)) => skipWsToks fuel (b, rest)
    | .ok (some (PTok.comment, b, rest)) => skipWsToks fuel (b, rest)
    | _ => st

/-- `Parser::read_string`: read characters while the predicate holds; with
`ignore_whitespace` a whitespace or comment token contributes one space,
otherwise it stops the read.  The stopping token is only peeked. -/
def readStringAux : Nat → (Char → Bool) → Bool → Bool × List Char → List Char →
    Except PErr (List Char × (Bool × List Char))
  | 0, _, _, st, acc => .ok (acc, st)
  | fuel + 1, pred, iw, st, acc =>
    match tokNext st.1 st.2 with
    | .ok none => .ok (acc, st)
    | .ok (some (PTok.character c, b, rest)) =>
      if pred c then readStringAux fuel pred iw (b, rest) (acc ++ [c])
      else .ok (acc, st)
    | .ok (some (PTok.whitespace, b, rest)) =>
      if iw then readStringAux fuel pred iw (b, rest) (acc ++ [' '])
      else .ok (acc, st)
    | .ok (some (PTok.comment, b, rest)) =>
      if iw then readStringAux fuel pred iw (b, rest) (acc ++ [' '])
      else .ok (acc, st)
    | .error e => .error e

/-- `Parser::skip_until`: count and skip character tokens while the predicate
holds; any other peeked token (or the end) stops with the count. -/
def skipUntilCount : Nat → (Char → Bool) → Bool × List Char → Nat →
    Nat × (Bool × List Char)
  | 0, _, st, n => (n, st)
  | fuel + 1, pred, st, n =>
    match tokNext st.1 st.2 with
    | .ok (some (PTok.character c, b, rest)) =>
      if pred c then skipUntilCount fuel pred (b, rest) (n + 1) else (n, st)
    | _ => (n, st)

/-- `Parser::read_exact_sequence`: each expected character must come as a
matching character token. -/
def readExactSeq : List Char → Bool × List Char → Except PErr (Bool × List Char)
  | [], st => .ok st
  | c :: seq, st =>
    match tokNext st.1 st.2 with
    | .ok (some (PTok.character d, b, rest)) =>
      if d = c then readExactSeq seq (b, rest)
      else .error (.invalidFormat "unexpected character")
    | .ok (some (PTok.whitespace, _, _)) => .error (.invalidFormat "unexpected whitespace")
    | .ok (some (PTok.comment, _, _)) => .error (.invalidFormat "unexpected comment")
    | .ok none => .error (.invalidFormat "unexpected eof")
    | .error e => .error e

/-- `skip_whitespace_tokens` with its canonical fuel (the loop consumes at
least one character per iteration). -/
def pstateSkipWs (st : Bool × List Char) : Bool × List Char :=
  skipWsToks (st.2.length + 1) st

def readStr (pred : Char → Bool) (iw : Bool) (st : Bool × List Char) :
    Except PErr (List Char × (Bool × List Char)) :=
  readStringAux (st.2.length + 1) pred iw st []

/-- `Parser::read_u64`: skip whitespace, read a digit run, parse it (an empty
run is a parse error). -/
def readU64 (st : Bool × List Char) : Except PErr (Nat × (Bool × List Char)) :=
  let st := pstateSkipWs st
  match readStr asciiDigit false st with
  | .error e => .error e
  | .ok (ds, st) =>
    if ds = [] then .error (.invalidFormat "invalid number")
    else .ok (digitsVal ds, st)

/-- `parse_iso_line` of `plain_parser/mod.rs`. -/
def plainIsoLine (st : Bool × List Char) : Except PErr (Bool × List Char) :=
  let st := pstateSkipWs st
  match readExactSeq "ISO-10303-21".data st with
  | .error e => .error e
  | .ok st =>
    let st := pstateSkipWs st
    readExactSeq [';'] st

/-- The loop of `find_data_section` of `plain_parser/mod.rs`: read an
alphabetic identifier; on `DATA` expect a semicolon; otherwise skip
non-alphabetic characters and fail with `NoDataSection` only when nothing at
all was consumed. -/
def plainFindAux : Nat → Bool × List Char → Except PErr (Bool × List Char)
  | 0, _ => .error .endOfInput
  | fuel + 1, st =>
    let st := pstateSkipWs st
    match readStr asciiAlpha false st with
    | .error e => .error e
    | .ok (id, st) =>
      if id = "DATA".data then
        let st := pstateSkipWs st
        readExactSeq [';'] st
      else
        let r := skipUntilCount (st.2.length + 1) (fun c => !asciiAlpha c) st 0
        if r.1 = 0 ∧ id = [] then .error .noDataSection
        else plainFindAux fuel r.2

/-- `STEPReader::new` of the plain reader. -/
def plainNew (cs : List Char) : Except PErr (Bool × List Char) :=
  match plainIsoLine (false, cs) with
  | .error e => .error e
  | .ok st => plainFindAux (st.2.length + 2) st

/-- `read_next_entry` of `plain_parser/mod.rs`. -/
def plainReadNext (st : Bool × List Char) :
    Except PErr (Option StepEntry × (Bool × List Char)) :=
  let st := pstateSkipWs st
  match readStr asciiAlpha false st with
  | .error e => .error e
  | .ok (id, st) =>
    if id = "ENDSEC".data then
      let st := pstateSkipWs st
      match readExactSeq [';'] st with
      | .error e => .error e
      | .ok st => .ok (none, st)
    else if id ≠ [] then .error (.unexpectedIdentifier (String.mk id))
    else
      match readExactSeq ['#'] st with
      | .error e => .error e
      | .ok st =>
        match readU64 st with
        | .error e => .error e
        | .ok (n, st) =>
          let st := pstateSkipWs st
          match readExactSeq ['='] st with
          | .error e => .error e
          | .ok st =>
            let st := pstateSkipWs st
            match readStr (fun c => !(c == ';')) true st with
            | .error e => .error e
            | .ok (d, st) =>
              match readExactSeq [';'] st with
              | .error e => .error e
              | .ok st => .ok (some ⟨n, String.mk d⟩, st)

/-- Draining the plain reader iterator. -/
def plainReadAllAux : Nat → Bool × List Char → List StepEntry × Option PErr
  | 0, _ => ([], some .endOfInput)
  | fuel + 1, st =>
    match plainReadNext st with
    | .ok (none, _) => ([], none)
    | .ok (some e, st) =>
      let r := plainReadAllAux fuel st
      (e :: r.1, r.2)
    | .error e => ([], some e)

/-- The plain reader end to end. -/
def plainRun (input : String) : List StepEntry × Option PErr :=
  match plainNew input.data with
  | .error e => ([], some e)
  | .ok st => plainReadAllAux (st.2.length + 1) st

/-! ### Lexer lemmas -/

theorem lws_rustWs (c : Char) (h : logosWsChar c = true) : rustIsWhitespace c = true := by
  simp only [logosWsChar, Bool.or_eq_true, beq_iff_eq] at h
  rcases h with ((((h | h) | h) | h) | h) <;> subst h <;> decide

theorem lws_ne_slash (c : Char) (h : logosWsChar c = true) : c ≠ '/' := by
  intro he
  subst he
  exact absurd h (by decide)

theorem defChar_spec (c : Char) (h : defChar c = true) :
    rustIsWhitespace c = false ∧ c ≠ ';' ∧ c ≠ '=' ∧ c ≠ quoteChar ∧ c ≠ '/' := by
  simp only [defChar, Bool.and_eq_true, Bool.not_eq_true', beq_eq_false_iff_ne, ne_eq] at h
  exact ⟨h.1.1.1.1, h.1.1.1.2, h.1.1.2, h.1.2, h.2⟩

theorem defChar_not_lws (c : Char) (h : defChar c = true) : logosWsChar c = false := by
  cases hl : logosWsChar c with
  | false => rfl
  | true => exact absurd (lws_rustWs c hl) (by simp [(defChar_spec c h).1])

theorem lws_not_defChar (c : Char) (h : logosWsChar c = true) : defChar c = false := by
  cases hd : defChar c with
  | false => rfl
  | true => exact absurd (defChar_not_lws c hd) (by simp [h])

theorem alpha_rustWs (c : Char) (h : asciiAlpha c = true) : rustIsWhitespace c = false := by
  simp only [asciiAlpha, Bool.or_eq_true, Bool.and_eq_true, decide_eq_true_eq] at h
  simp only [rustIsWhitespace, Bool.or_eq_false_iff, Bool.and_eq_false_iff,
    decide_eq_false_iff_not, beq_eq_false_iff_ne, ne_eq]
  omega

theorem alpha_defChar (c : Char) (h : asciiAlpha c = true) : defChar c = true := by
  have hq : c ≠ ';' := fun he => absurd (he ▸ h) (by decide)
  have he : c ≠ '=' := fun hx => absurd (hx ▸ h) (by decide)
  have hs : c ≠ quoteChar := fun hx => absurd (hx ▸ h) (by decide)
  have hsl : c ≠ '/' := fun hx => absurd (hx ▸ h) (by decide)
  simp [defChar, alpha_rustWs c h, hq, he, hs, hsl]

/-- `takeWhile` passes over a block whose members all satisfy the predicate. -/
theorem takeWhile_append_all (p : Char → Bool) (w ys : List Char)
    (hw : ∀ c ∈ w, p c = true) :
    (w ++ ys).takeWhile p = w ++ ys.takeWhile p := by
  induction w with
  | nil => rfl
  | cons c w ih =>
    simp only [List.cons_append, List.takeWhile_cons, hw c (by simp), if_true]
    rw [ih (fun d hd => hw d (by simp [hd]))]

theorem dropWhile_append_all (p : Char → Bool) (w ys : List Char)
    (hw : ∀ c ∈ w, p c = true) :
    (w ++ ys).dropWhile p = ys.dropWhile p := by
  induction w with
  | nil => rfl
  | cons c w ih =>
    simp only [List.cons_append, List.dropWhile_cons, hw c (by simp), if_true]
    exact ih (fun d hd => hw d (by simp [hd]))

theorem takeWhile_head_false (p : Char → Bool) (ys : List Char)
    (hy : ∀ c, ys.head? = some c → p c = false) : ys.takeWhile p = [] := by
  cases ys with
  | nil => rfl
  | cons c ys => simp [List.takeWhile_cons, hy c rfl]

theorem dropWhile_head_false (p : Char → Bool) (ys : List Char)
    (hy : ∀ c, ys.head? = some c → p c = false) : ys.dropWhile p = ys := by
  cases ys with
  | nil => rfl
  | cons c ys => simp [List.dropWhile_cons, hy c rfl]

theorem takeWhile_all_append (p : Char → Bool) (w ys : List Char)
    (hw : ∀ c ∈ w, p c = true) (hy : ∀ c, ys.head? = some c → p c = false) :
    (w ++ ys).takeWhile p = w := by
  rw [takeWhile_append_all p w ys hw, takeWhile_head_false p ys hy, List.append_nil]

theorem commentAux_other (c : Char) (rest : List Char) (k : Nat) (hc : ¬ c = '*') :
    commentAux (c :: rest) k = commentAux rest (k + 1) := by
  conv_lhs => unfold commentAux
  rw [if_neg hc]

theorem commentAux_star_nil (k : Nat) : commentAux ['*'] k = none := rfl

theorem commentAux_star_cons (d : Char) (rest : List Char) (k : Nat) :
    commentAux ('*' :: d :: rest) k =
      if d = '/' then some (k + 2) else commentAux rest (k + 2) := rfl

theorem commentAux_ge : ∀ (b : Nat) (xs : List Char), xs.length ≤ b →
    ∀ (k m : Nat), commentAux xs k = some m → k ≤ m := by
  intro b
  induction b with
  | zero =>
    intro xs hlen k m h
    rw [List.length_eq_zero.mp (Nat.le_zero.mp hlen)] at h
    exact Option.noConfusion h
  | succ b ih =>
    intro xs hlen k m h
    cases xs with
    | nil => exact Option.noConfusion h
    | cons c rest =>
      by_cases hc : c = '*'
      · subst hc
        cases rest with
        | nil => rw [commentAux_star_nil] at h; exact Option.noConfusion h
        | cons d rest' =>
          rw [commentAux_star_cons] at h
          by_cases hd : d = '/'
          · rw [if_pos hd] at h
            obtain rfl := Option.some_inj.mp h
            omega
          · rw [if_neg hd] at h
            have := ih rest' (by simp at hlen; omega) (k + 2) m h
            omega
      · rw [commentAux_other c rest k hc] at h
        have := ih rest (by simp at hlen; omega) (k + 1) m h
        omega

theorem commentAux_append : ∀ (b : Nat) (xs : List Char), xs.length ≤ b →
    ∀ (k m : Nat), commentAux xs k = some m →
    ∀ ys, commentAux (xs ++ ys) k = some m := by
  intro b
  induction b with
  | zero =>
    intro xs hlen k m h
    rw [List.length_eq_zero.mp (Nat.le_zero.mp hlen)] at h
    exact Option.noConfusion h
  | succ b ih =>
    intro xs hlen k m h ys
    cases xs with
    | nil => exact Option.noConfusion h
    | cons c rest =>
      rw [List.cons_append]
      by_cases hc : c = '*'
      · subst hc
        cases rest with
        | nil => rw [commentAux_star_nil] at h; exact Option.noConfusion h
        | cons d rest' =>
          rw [commentAux_star_cons] at h
          rw [List.cons_append, commentAux_star_cons]
          by_cases hd : d = '/'
          · rw [if_pos hd] at h ⊢
            exact h
          · rw [if_neg hd] at h ⊢
            exact ih rest' (by simp at hlen; omega) (k + 2) m h ys
      · rw [commentAux_other c rest k hc] at h
        rw [commentAux_other c (rest ++ ys) k hc]
        exact ih rest (by simp at hlen; omega) (k + 1) m h ys

theorem commentLen_shape (s : List Char) (n : Nat) (h : commentLen s = some n) :
    ∃ rest, s = '/' :: '*' :: rest ∧ commentAux rest 2 = some n := by
  match s with
  | [] => exact absurd h (by simp [commentLen])
  | [c] => exact absurd h (by simp [commentLen])
  | c1 :: c2 :: rest =>
    simp only [commentLen] at h
    split at h
    · rename_i hcond
      simp only [Bool.and_eq_true, decide_eq_true_eq] at hcond
      exact ⟨rest, by rw [hcond.1, hcond.2], h⟩
    · exact absurd h (by simp)

theorem commentLen_append (s cs : List Char) (n : Nat) (h : commentLen s = some n) :
    commentLen (s ++ cs) = some n := by
  obtain ⟨rest, rfl, haux⟩ := commentLen_shape s n h
  simp only [List.cons_append, commentLen, decide_True, Bool.and_self, if_true]
  exact commentAux_append rest.length rest le_rfl 2 n haux cs

theorem commentLen_head_ne (cs : List Char) (c : Char) (h : cs.head? = some c)
    (hc : c ≠ '/') : commentLen cs = none := by
  match cs with
  | [] => simp at h
  | [d] => rfl
  | d :: e :: rest =>
    obtain rfl : d = c := by simpa using h
    simp [commentLen, hc]

theorem commentLen_pos (s : List Char) (n : Nat) (h : commentLen s = some n) : 0 < n := by
  obtain ⟨rest, rfl, haux⟩ := commentLen_shape s n h
  have := commentAux_ge rest.length rest le_rfl 2 n haux
  omega

theorem prefix_all_le_takeWhile (p : Char → Bool) (kw l : List Char)
    (hpre : kw <+: l) (hall : ∀ c ∈ kw, p c = true) :
    kw.length ≤ (l.takeWhile p).length := by
  obtain ⟨t, rfl⟩ := hpre
  rw [takeWhile_append_all p kw t hall]
  simp

theorem kwMatch_some (cs : List Char) (n : Nat) (t : LTok) (h : kwMatch cs = some (n, t)) :
    ∃ p, p ∈ kwList ∧ p.1 <+: cs ∧ n = p.1.length ∧ t = p.2 := by
  unfold kwMatch at h
  cases hf : kwList.find? (fun p => p.1.isPrefixOf cs) with
  | none => rw [hf] at h; exact Option.noConfusion h
  | some q =>
    rw [hf] at h
    simp only [Option.map_some', Option.some_inj, Prod.mk.injEq] at h
    have hq := List.find?_some hf
    exact ⟨q, List.mem_of_find?_eq_some hf,
      List.isPrefixOf_iff_prefix.mp (by simpa using hq), h.1.symm, h.2.symm⟩

theorem kwList_facts : ∀ p ∈ kwList, 0 < p.1.length ∧ ∀ c ∈ p.1, defChar c = true := by
  decide

/-- Whether a token is emitted by the stream (whitespace and comments carry
`logos::skip`). -/
def emitTok : LTok → Bool
  | LTok.whitespace => false
  | LTok.comments => false
  | _ => true

theorem stringLen_cons (c : Char) (rest : List Char) :
    stringLen (c :: rest) =
      if c = quoteChar then
        (let inner := rest.takeWhile (fun d => !(d == quoteChar))
         if inner.length < rest.length then some (inner.length + 2) else none)
      else none := rfl

theorem refMatch_cons (c : Char) (rest : List Char) :
    refMatch (c :: rest) =
      if c = '#' then
        (let w := rest.takeWhile rustIsWhitespace
         let ds := rest.drop w.length
         match ds with
         | d :: _ =>
           if '1' ≤ d && d ≤ '9' then
             let digits := ds.takeWhile asciiDigit
             some (1 + w.length + digits.length, digitsVal digits)
           else none
         | [] => none)
      else none := rfl

theorem stringLen_pos (cs : List Char) (n : Nat) (h : stringLen cs = some n) : 0 < n := by
  cases cs with
  | nil => exact Option.noConfusion h
  | cons c rest =>
    rw [stringLen_cons] at h
    by_cases hc : c = quoteChar
    · rw [if_pos hc] at h
      dsimp only at h
      split at h
      · obtain rfl := Option.some_inj.mp h
        omega
      · exact Option.noConfusion h
    · rw [if_neg hc] at h
      exact Option.noConfusion h

theorem refMatch_pos (cs : List Char) (n v : Nat) (h : refMatch cs = some (n, v)) :
    0 < n := by
  cases cs with
  | nil => exact Option.noConfusion h
  | cons c rest =>
    rw [refMatch_cons] at h
    by_cases hc : c = '#'
    · rw [if_pos hc] at h
      dsimp only at h
      split at h
      · split at h
        · simp only [Option.some_inj, Prod.mk.injEq] at h
          omega
        · exact Option.noConfusion h
      · exact Option.noConfusion h
    · rw [if_neg hc] at h
      exact Option.noConfusion h

theorem lexOne_pos (cs : List Char) (t : LTok) (n : Nat)
    (h : lexOne cs = some (t, n)) : 0 < n := by
  unfold lexOne at h
  cases hcl : commentLen cs with
  | some m =>
    rw [hcl] at h
    simp only [Option.some_inj, Prod.mk.injEq] at h
    exact h.2 ▸ commentLen_pos cs m hcl
  | none =>
    rw [hcl] at h
    dsimp only at h
    by_cases hw : 0 < (cs.takeWhile logosWsChar).length
    · rw [if_pos hw] at h
      simp only [Option.some_inj, Prod.mk.injEq] at h
      omega
    · rw [if_neg hw] at h
      cases cs with
      | nil => exact Option.noConfusion h
      | cons c rest =>
        dsimp only at h
        by_cases he : c = '='
        · rw [if_pos he] at h
          simp only [Option.some_inj, Prod.mk.injEq] at h
          omega
        · rw [if_neg he] at h
          by_cases hs : c = ';'
          · rw [if_pos hs] at h
            simp only [Option.some_inj, Prod.mk.injEq] at h
            omega
          · rw [if_neg hs] at h
            by_cases hq : c = quoteChar
            · rw [if_pos hq] at h
              cases hsl : stringLen (c :: rest) with
              | none => rw [hsl] at h; exact Option.noConfusion h
              | some m =>
                rw [hsl] at h
                simp only [Option.some_inj, Prod.mk.injEq] at h
                exact h.2 ▸ stringLen_pos _ m hsl
            · rw [if_neg hq] at h
              cases hrm : refMatch (c :: rest) with
              | some p =>
                rw [hrm] at h
                obtain ⟨m, v⟩ := p
                dsimp only at h
                split at h
                · simp only [Option.some_inj, Prod.mk.injEq] at h
                  rename_i hlt
                  omega
                · simp only [Option.some_inj, Prod.mk.injEq] at h
                  exact h.2 ▸ refMatch_pos _ m v hrm
              | none =>
                rw [hrm] at h
                cases hkm : kwMatch (c :: rest) with
                | some p =>
                  rw [hkm] at h
                  obtain ⟨m, tk⟩ := p
                  dsimp only at h
                  split at h
                  · simp only [Option.some_inj, Prod.mk.injEq] at h
                    rename_i hlt
                    omega
                  · simp only [Option.some_inj, Prod.mk.injEq] at h
                    obtain ⟨q, hmem, hpre, hm, ht⟩ := kwMatch_some _ m tk hkm
                    have := (kwList_facts q hmem).1
                    omega
                | none =>
                  rw [hkm] at h
                  by_cases hd : 0 < ((c :: rest).takeWhile defChar).length
                  · rw [if_pos hd] at h
                    simp only [Option.some_inj, Prod.mk.injEq] at h
                    omega
                  · rw [if_neg hd] at h
                    exact Option.noConfusion h

theorem lexListAux_succ_none (f : Nat) (cs : List Char) (h : lexOne cs = none) :
    lexListAux (f + 1) cs = [] := by
  conv_lhs => unfold lexListAux
  rw [h]

theorem lexListAux_succ_emit (f : Nat) (cs : List Char) (t : LTok) (n : Nat)
    (h : lexOne cs = some (t, n)) (ht : emitTok t = true) :
    lexListAux (f + 1) cs = t :: lexListAux f (cs.drop n) := by
  conv_lhs => unfold lexListAux
  rw [h]
  cases t <;> first
    | rfl
    | exact absurd ht (by simp [emitTok])

theorem lexListAux_succ_skip (f : Nat) (cs : List Char) (t : LTok) (n : Nat)
    (h : lexOne cs = some (t, n)) (ht : emitTok t = false) :
    lexListAux (f + 1) cs = lexListAux f (cs.drop n) := by
  conv_lhs => unfold lexListAux
  rw [h]
  cases t <;> first
    | rfl
    | exact absurd ht (by simp [emitTok])

theorem lexListAux_nil (f : Nat) : lexListAux f [] = [] := by
  cases f with
  | zero => rfl
  | succ f => exact lexListAux_succ_none f [] rfl

theorem lexListAux_congr : ∀ (f g : Nat) (cs : List Char),
    cs.length ≤ f → cs.length ≤ g → lexListAux f cs = lexListAux g cs := by
  intro f
  induction f with
  | zero =>
    intro g cs hf hg
    rw [List.length_eq_zero.mp (Nat.le_zero.mp hf), lexListAux_nil, lexListAux_nil]
  | succ f ih =>
    intro g cs hf hg
    cases g with
    | zero => rw [List.length_eq_zero.mp (Nat.le_zero.mp hg), lexListAux_nil, lexListAux_nil]
    | succ g =>
      cases hlx : lexOne cs with
      | none => rw [lexListAux_succ_none f cs hlx, lexListAux_succ_none g cs hlx]
      | some p =>
        obtain ⟨t, n⟩ := p
        have hn := lexOne_pos cs t n hlx
        have hdf : (cs.drop n).length ≤ f := by
          rw [List.length_drop]
          omega
        have hdg : (cs.drop n).length ≤ g := by
          rw [List.length_drop]
          omega
        cases hemit : emitTok t with
        | true =>
          rw [lexListAux_succ_emit f cs t n hlx hemit,
            lexListAux_succ_emit g cs t n hlx hemit, ih g (cs.drop n) hdf hdg]
        | false =>
          rw [lexListAux_succ_skip f cs t n hlx hemit,
            lexListAux_succ_skip g cs t n hlx hemit, ih g (cs.drop n) hdf hdg]

/-- A token that lexes exactly a nonempty block `xs` contributes itself to
the stream, and lexing continues after the block. -/
theorem lexList_step_tok (xs ys : List Char) (t : LTok) (hx : xs ≠ [])
    (h : lexOne (xs ++ ys) = some (t, xs.length)) (ht : emitTok t = true) :
    lexList (xs ++ ys) = t :: lexList ys := by
  unfold lexList
  have hp : 0 < xs.length := List.length_pos.mpr hx
  have hlen : (xs ++ ys).length = (xs.length - 1 + ys.length) + 1 := by
    rw [List.length_append]
    omega
  rw [hlen, lexListAux_succ_emit _ _ _ _ h ht, List.drop_left]
  exact congrArg _ (lexListAux_congr _ _ ys (by omega) le_rfl)

/-- A skipped token (whitespace or comment) that lexes exactly a nonempty
block contributes nothing to the stream. -/
theorem lexList_step_skip (xs ys : List Char) (t : LTok) (hx : xs ≠ [])
    (h : lexOne (xs ++ ys) = some (t, xs.length)) (ht : emitTok t = false) :
    lexList (xs ++ ys) = lexList ys := by
  unfold lexList
  have hp : 0 < xs.length := List.length_pos.mpr hx
  have hlen : (xs ++ ys).length = (xs.length - 1 + ys.length) + 1 := by
    rw [List.length_append]
    omega
  rw [hlen, lexListAux_succ_skip _ _ _ _ h ht, List.drop_left]
  exact lexListAux_congr _ _ ys (by omega) le_rfl

/-- A definition word for the amended C2/C8 statements: nonempty, made of
definition characters, not starting with `#` (which could lex as a
reference) and not itself a keyword. -/
def bodyWord (w : List Char) : Prop :=
  w ≠ [] ∧ (∀ c ∈ w, defChar c = true) ∧ w.head? ≠ some '#' ∧ ∀ p ∈ kwList, w ≠ p.1

instance (w : List Char) : Decidable (bodyWord w) := by
  unfold bodyWord
  infer_instance

theorem lexOne_ws (c : Char) (rest : List Char) (hc : logosWsChar c = true) :
    lexOne (c :: rest) =
      some (LTok.whitespace, ((c :: rest).takeWhile logosWsChar).length) := by
  have hcl : commentLen (c :: rest) = none :=
    commentLen_head_ne _ c (by simp) (lws_ne_slash c hc)
  unfold lexOne
  rw [hcl]
  dsimp only
  rw [if_pos (by simp [List.takeWhile_cons, hc])]

theorem drop_len_takeWhile (p : Char → Bool) (l : List Char) :
    l.drop (l.takeWhile p).length = l.dropWhile p := by
  induction l with
  | nil => rfl
  | cons a l ih =>
    by_cases ha : p a
    · simp [List.takeWhile_cons, List.dropWhile_cons, ha, ih]
    · simp [List.takeWhile_cons, List.dropWhile_cons, ha]

theorem lexList_dropWs (cs : List Char) :
    lexList cs = lexList (cs.dropWhile logosWsChar) := by
  cases cs with
  | nil => rfl
  | cons c rest =>
    cases hc : logosWsChar c with
    | false => simp [List.dropWhile_cons, hc]
    | true =>
      have hlx := lexOne_ws c rest hc
      unfold lexList
      rw [show (c :: rest).length = rest.length + 1 from rfl,
        lexListAux_succ_skip rest.length (c :: rest) _ _ hlx rfl]
      rw [drop_len_takeWhile logosWsChar (c :: rest)]
      have hlen : ((c :: rest).dropWhile logosWsChar).length ≤ rest.length := by
        rw [List.dropWhile_cons, hc]
        simp only [if_true]
        exact List.Sublist.length_le (List.dropWhile_sublist _)
      exact lexListAux_congr _ _ _ hlen le_rfl

theorem lexList_ws_skip (s cs : List Char) (h : ∀ c ∈ s, logosWsChar c = true) :
    lexList (s ++ cs) = lexList cs := by
  rw [lexList_dropWs (s ++ cs), dropWhile_append_all _ s cs h, ← lexList_dropWs cs]

/-- A block skipped by the lexer: a nonempty whitespace run or one comment. -/
def skipChunk (s : List Char) : Prop :=
  (s ≠ [] ∧ ∀ c ∈ s, logosWsChar c = true) ∨ commentLen s = some s.length

instance (s : List Char) : Decidable (skipChunk s) := by
  unfold skipChunk
  infer_instance

theorem skipChunk_ne_nil (s : List Char) (h : skipChunk s) : s ≠ [] := by
  rcases h with ⟨hne, -⟩ | hcom
  · exact hne
  · obtain ⟨rest, rfl, -⟩ := commentLen_shape s _ hcom
    simp

theorem skipChunk_head (s : List Char) (c : Char) (h : skipChunk s)
    (hh : s.head? = some c) : defChar c = false := by
  rcases h with ⟨hne, hall⟩ | hcom
  · cases s with
    | nil => simp at hh
    | cons d rest =>
      have hdc : d = c := by simpa using hh
      subst hdc
      exact lws_not_defChar d (hall d (by simp))
  · obtain ⟨rest, rfl, -⟩ := commentLen_shape s _ hcom
    obtain rfl : c = '/' := by simpa using hh.symm
    decide

theorem lexList_chunk (s cs : List Char) (h : skipChunk s) :
    lexList (s ++ cs) = lexList cs := by
  rcases h with ⟨hne, hall⟩ | hcom
  · exact lexList_ws_skip s cs hall
  · have hne : s ≠ [] := skipChunk_ne_nil s (Or.inr hcom)
    have hca : commentLen (s ++ cs) = some s.length := commentLen_append s cs _ hcom
    have hlx : lexOne (s ++ cs) = some (LTok.comments, s.length) := by
      unfold lexOne
      rw [hca]
    exact lexList_step_skip s cs _ hne hlx rfl

theorem lexList_chunks (ss : List (List Char)) (h : ∀ s ∈ ss, skipChunk s)
    (cs : List Char) : lexList (ss.flatten ++ cs) = lexList cs := by
  induction ss with
  | nil => rfl
  | cons s ss ih =>
    rw [List.flatten_cons, List.append_assoc, lexList_chunk s _ (h s (by simp))]
    exact ih (fun x hx => h x (by simp [hx]))

/-- A body word surrounded by non-definition characters lexes as a single
`Definition` token (maximal munch; keywords lose because the word is longer
or is hypothesised not to be a keyword). -/
theorem lexOne_word (w ys : List Char) (hw : bodyWord w)
    (hy : ∀ c, ys.head? = some c → defChar c = false) :
    lexOne (w ++ ys) = some (LTok.defn (String.mk w), w.length) := by
  obtain ⟨hne, hall, hhash, hkw⟩ := hw
  cases w with
  | nil => exact absurd rfl hne
  | cons c w' =>
    have hcd : defChar c = true := hall c (by simp)
    obtain ⟨hws, hsemi, heqc, hq, hsl⟩ := defChar_spec c hcd
    have hch : c ≠ '#' := by
      intro he
      exact hhash (by simp [he])
    have htw : ((c :: w') ++ ys).takeWhile defChar = c :: w' :=
      takeWhile_all_append defChar (c :: w') ys hall hy
    have hcl : commentLen ((c :: w') ++ ys) = none :=
      commentLen_head_ne _ c (by simp) hsl
    rw [List.cons_append] at htw hcl ⊢
    have hrm : refMatch (c :: (w' ++ ys)) = none := by
      rw [refMatch_cons, if_neg hch]
    unfold lexOne
    rw [hcl]
    dsimp only
    rw [htw]
    have h0 : List.takeWhile logosWsChar (c :: (w' ++ ys)) = [] := by
      simp [List.takeWhile_cons, defChar_not_lws c hcd]
    rw [h0]
    rw [if_neg (by simp)]
    rw [if_neg heqc, if_neg hsemi, if_neg hq, hrm]
    have htake : (c :: (w' ++ ys)).take (c :: w').length = c :: w' := by
      rw [← List.cons_append, List.take_left]
    cases hkm : kwMatch (c :: (w' ++ ys)) with
    | none =>
      dsimp only
      rw [if_pos (by simp), htake]
    | some p =>
      obtain ⟨m, tk⟩ := p
      obtain ⟨q, hmem, hpre, rfl, rfl⟩ := kwMatch_some _ m tk hkm
      have hle : q.1.length ≤ (c :: w').length := by
        have := prefix_all_le_takeWhile defChar q.1 (c :: (w' ++ ys)) hpre
          (kwList_facts q hmem).2
        rwa [htw] at this
      have hne2 : q.1.length ≠ (c :: w').length := by
        intro heq2
        have : q.1 = c :: w' := by
          have := List.prefix_iff_eq_take.mp hpre
          rw [this, heq2, htake]
        exact hkw q hmem this.symm
      dsimp only
      rw [if_pos (by omega), htake]

/-- A quote followed by quote-free content and a closing quote lexes as a
single `String` token carrying the inner content. -/
theorem lexOne_string (s ys : List Char) (hs : ∀ c ∈ s, ¬ c = quoteChar) :
    lexOne (quoteChar :: (s ++ (quoteChar :: ys)))
      = some (LTok.str (String.mk s), s.length + 2) := by
  have hcl : commentLen (quoteChar :: (s ++ (quoteChar :: ys))) = none :=
    commentLen_head_ne _ quoteChar (by simp) (by decide)
  have hinner : (s ++ (quoteChar :: ys)).takeWhile (fun d => !(d == quoteChar)) = s :=
    takeWhile_all_append _ s _ (fun c hc => by simp [hs c hc])
      (fun c hc => by
        obtain rfl : c = quoteChar := by simpa using hc.symm
        simp)
  have hsl : stringLen (quoteChar :: (s ++ (quoteChar :: ys))) = some (s.length + 2) := by
    rw [stringLen_cons, if_pos rfl]
    dsimp only
    rw [hinner]
    rw [if_pos (by rw [List.length_append]; simp)]
  unfold lexOne
  rw [hcl]
  dsimp only
  have h0 : List.takeWhile logosWsChar (quoteChar :: (s ++ quoteChar :: ys)) = [] := by
    simp [List.takeWhile_cons, show logosWsChar quoteChar = false from rfl]
  rw [h0]
  rw [if_neg (by simp)]
  rw [if_neg (by decide : ¬ quoteChar = '='), if_neg (by decide : ¬ quoteChar = ';'),
    if_pos rfl, hsl]
  dsimp only
  rw [Nat.add_sub_cancel, List.take_left]

theorem lexOne_eq_char (ys : List Char) : lexOne ('=' :: ys) = some (LTok.eq, 1) := by
  have hcl : commentLen ('=' :: ys) = none :=
    commentLen_head_ne _ '=' (by simp) (by decide)
  unfold lexOne
  rw [hcl]
  dsimp only
  rw [show List.takeWhile logosWsChar ('=' :: ys) = [] from by
    simp [List.takeWhile_cons, show logosWsChar '=' = false from rfl]]
  rw [if_neg (by simp)]
  rw [if_pos rfl]

/-- C2 (counterexample): the active logos reader deletes whitespace between
two definition words instead of collapsing it to one space: the body `A B`
is stored as `AB`, not `A B`. -/
theorem C2_counterexample :
    logosRun "ISO-10303-21; DATA; #1=A B; ENDSEC;" = ([⟨1, "AB"⟩], none) ∧
      "AB" ≠ "A B" := by
  exact ⟨rfl, by decide⟩

/-- C2 (amended): in the logos reader, every run of whitespace and comments
between two definition words of an entry body is deleted entirely — the two
words are concatenated with no separating space — while the entry id and the
words themselves are kept. -/
theorem C2_theorem (w1 w2 : List Char) (seps : List (List Char))
    (hw1 : bodyWord w1) (hw2 : bodyWord w2) (hne : seps ≠ [])
    (hseps : ∀ s ∈ seps, skipChunk s) :
    logosRun (String.mk ("ISO-10303-21; DATA; #1=".data ++ w1 ++ seps.flatten
        ++ w2 ++ "; ENDSEC;".data))
      = ([⟨1, String.mk (w1 ++ w2)⟩], none) := by
  have h9 : lexList ("; ENDSEC;".data) = [LTok.sem, LTok.endsec, LTok.sem] := rfl
  have hyw2 : ∀ c, ("; ENDSEC;".data).head? = some c → defChar c = false := by
    intro c hc
    obtain rfl : c = ';' := by simpa using hc.symm
    decide
  have h8 : lexList (w2 ++ "; ENDSEC;".data)
      = [LTok.defn (String.mk w2), LTok.sem, LTok.endsec, LTok.sem] := by
    rw [lexList_step_tok w2 ("; ENDSEC;".data) (LTok.defn (String.mk w2)) hw2.1
      (lexOne_word w2 ("; ENDSEC;".data) hw2 hyw2) rfl, h9]
  have h7 : lexList (seps.flatten ++ (w2 ++ "; ENDSEC;".data))
      = [LTok.defn (String.mk w2), LTok.sem, LTok.endsec, LTok.sem] := by
    rw [lexList_chunks seps hseps (w2 ++ "; ENDSEC;".data), h8]
  have hyw1 : ∀ c, (seps.flatten ++ (w2 ++ "; ENDSEC;".data)).head? = some c →
      defChar c = false := by
    cases seps with
    | nil => exact absurd rfl hne
    | cons s0 rest =>
      intro c hc
      have hs0 := hseps s0 (by simp)
      cases s0 with
      | nil => exact absurd rfl (skipChunk_ne_nil [] hs0)
      | cons a s0' =>
        obtain rfl : a = c := by simpa [List.flatten_cons] using hc
        exact skipChunk_head _ a hs0 (by simp)
  have h6 : lexList (w1 ++ (seps.flatten ++ (w2 ++ "; ENDSEC;".data)))
      = [LTok.defn (String.mk w1), LTok.defn (String.mk w2), LTok.sem,
          LTok.endsec, LTok.sem] := by
    rw [lexList_step_tok w1 (seps.flatten ++ (w2 ++ "; ENDSEC;".data))
      (LTok.defn (String.mk w1)) hw1.1
      (lexOne_word w1 (seps.flatten ++ (w2 ++ "; ENDSEC;".data)) hw1 hyw1) rfl, h7]
  have h5 : lexList (['='] ++ (w1 ++ (seps.flatten ++ (w2 ++ "; ENDSEC;".data))))
      = [LTok.eq, LTok.defn (String.mk w1), LTok.defn (String.mk w2), LTok.sem,
          LTok.endsec, LTok.sem] := by
    rw [lexList_step_tok ['='] (w1 ++ (seps.flatten ++ (w2 ++ "; ENDSEC;".data)))
      LTok.eq (by decide)
      (lexOne_eq_char (w1 ++ (seps.flatten ++ (w2 ++ "; ENDSEC;".data)))) rfl, h6]
  have h4 : lexList ("#1".data ++ (['='] ++ (w1 ++ (seps.flatten
        ++ (w2 ++ "; ENDSEC;".data)))))
      = [LTok.reference 1, LTok.eq, LTok.defn (String.mk w1),
          LTok.defn (String.mk w2), LTok.sem, LTok.endsec, LTok.sem] := by
    rw [lexList_step_tok "#1".data (['='] ++ (w1 ++ (seps.flatten
      ++ (w2 ++ "; ENDSEC;".data)))) (LTok.reference 1) (by decide) rfl rfl, h5]
  have h3 : lexList ([' '] ++ ("#1".data ++ (['='] ++ (w1 ++ (seps.flatten
        ++ (w2 ++ "; ENDSEC;".data))))))
      = [LTok.reference 1, LTok.eq, LTok.defn (String.mk w1),
          LTok.defn (String.mk w2), LTok.sem, LTok.endsec, LTok.sem] := by
    rw [lexList_step_skip [' '] ("#1".data ++ (['='] ++ (w1 ++ (seps.flatten
      ++ (w2 ++ "; ENDSEC;".data))))) LTok.whitespace (by decide) rfl rfl, h4]
  have h2 : lexList ([';'] ++ ([' '] ++ ("#1".data ++ (['='] ++ (w1 ++ (seps.flatten
        ++ (w2 ++ "; ENDSEC;".data)))))))
      = [LTok.sem, LTok.reference 1, LTok.eq, LTok.defn (String.mk w1),
          LTok.defn (String.mk w2), LTok.sem, LTok.endsec, LTok.sem] := by
    rw [lexList_step_tok [';'] ([' '] ++ ("#1".data ++ (['='] ++ (w1 ++ (seps.flatten
      ++ (w2 ++ "; ENDSEC;".data)))))) LTok.sem (by decide) rfl rfl, h3]
  have h1 : lexList ("DATA".data ++ ([';'] ++ ([' '] ++ ("#1".data ++ (['='] ++ (w1
        ++ (seps.flatten ++ (w2 ++ "; ENDSEC;".data))))))))
      = [LTok.data, LTok.sem, LTok.reference 1, LTok.eq, LTok.defn (String.mk w1),
          LTok.defn (String.mk w2), LTok.sem, LTok.endsec, LTok.sem] := by
    rw [lexList_step_tok "DATA".data ([';'] ++ ([' '] ++ ("#1".data ++ (['='] ++ (w1
      ++ (seps.flatten ++ (w2 ++ "; ENDSEC;".data))))))) LTok.data (by decide)
      rfl rfl, h2]
  have h1b : lexList ([' '] ++ ("DATA".data ++ ([';'] ++ ([' '] ++ ("#1".data
        ++ (['='] ++ (w1 ++ (seps.flatten ++ (w2 ++ "; ENDSEC;".data)))))))))
      = [LTok.data, LTok.sem, LTok.reference 1, LTok.eq, LTok.defn (String.mk w1),
          LTok.defn (String.mk w2), LTok.sem, LTok.endsec, LTok.sem] := by
    rw [lexList_step_skip [' '] ("DATA".data ++ ([';'] ++ ([' '] ++ ("#1".data
      ++ (['='] ++ (w1 ++ (seps.flatten ++ (w2 ++ "; ENDSEC;".data)))))))) 
      LTok.whitespace (by decide) rfl rfl, h1]
  have h0b : lexList ([';'] ++ ([' '] ++ ("DATA".data ++ ([';'] ++ ([' ']
        ++ ("#1".data ++ (['='] ++ (w1 ++ (seps.flatten
        ++ (w2 ++ "; ENDSEC;".data))))))))))
      = [LTok.sem, LTok.data, LTok.sem, LTok.reference 1, LTok.eq,
          LTok.defn (String.mk w1), LTok.defn (String.mk w2), LTok.sem,
          LTok.endsec, LTok.sem] := by
    rw [lexList_step_tok [';'] ([' '] ++ ("DATA".data ++ ([';'] ++ ([' ']
      ++ ("#1".data ++ (['='] ++ (w1 ++ (seps.flatten
      ++ (w2 ++ "; ENDSEC;".data))))))))) LTok.sem (by decide) rfl rfl, h1b]
  have h0 : lexList ("ISO-10303-21".data ++ ([';'] ++ ([' '] ++ ("DATA".data
        ++ ([';'] ++ ([' '] ++ ("#1".data ++ (['='] ++ (w1 ++ (seps.flatten
        ++ (w2 ++ "; ENDSEC;".data)))))))))))
      = [LTok.startTag, LTok.sem, LTok.data, LTok.sem, LTok.reference 1, LTok.eq,
          LTok.defn (String.mk w1), LTok.defn (String.mk w2), LTok.sem,
          LTok.endsec, LTok.sem] := by
    rw [lexList_step_tok "ISO-10303-21".data ([';'] ++ ([' '] ++ ("DATA".data
      ++ ([';'] ++ ([' '] ++ ("#1".data ++ (['='] ++ (w1 ++ (seps.flatten
      ++ (w2 ++ "; ENDSEC;".data)))))))))) LTok.startTag (by decide) rfl rfl, h0b]
  have htoks : lexList ("ISO-10303-21; DATA; #1=".data ++ (w1 ++ (seps.flatten
        ++ (w2 ++ "; ENDSEC;".data))))
      = [LTok.startTag, LTok.sem, LTok.data, LTok.sem, LTok.reference 1, LTok.eq,
          LTok.defn (String.mk w1), LTok.defn (String.mk w2), LTok.sem,
          LTok.endsec, LTok.sem] := h0
  simp only [List.append_assoc]
  unfold logosRun logosNew
  dsimp only
  rw [htoks]
  rfl

/-- C2 (witness): the amended statement at the body `A /*c*/ B` with a
tab-and-space whitespace mix. -/
theorem C2_witness :
    bodyWord ("A".data) ∧
    logosRun (String.mk ("ISO-10303-21; DATA; #1=".data ++ "A".data
        ++ [[' '], "/*c*/".data, [Char.ofNat 9]].flatten ++ "B".data
        ++ "; ENDSEC;".data))
      = ([⟨1, String.mk ("A".data ++ "B".data)⟩], none) :=
  ⟨by decide,
    C2_theorem ("A".data) ("B".data) [[' '], "/*c*/".data, [Char.ofNat 9]]
      (by decide) (by decide) (by decide) (by decide)⟩

/-! ### C7: quoted strings are opaque -/

theorem tokNext_inStr (c : Char) (rest : List Char) (hc : ¬ c = quoteChar) :
    tokNext true (c :: rest) = .ok (some (PTok.character c, true, rest)) := by
  unfold tokNext
  dsimp only
  rw [if_neg hc]
  rfl

theorem readStringAux_char (f : Nat) (pred : Char → Bool) (iw : Bool)
    (st : Bool × List Char) (acc : List Char) (c : Char) (b' : Bool)
    (rest : List Char) (h : tokNext st.1 st.2 = .ok (some (PTok.character c, b', rest)))
    (hp : pred c = true) :
    readStringAux (f + 1) pred iw st acc = readStringAux f pred iw (b', rest) (acc ++ [c]) := by
  conv_lhs => unfold readStringAux
  rw [h]
  dsimp only
  rw [if_pos hp]

/-- `read_string` passes verbatim over in-string characters that satisfy the
predicate. -/
theorem readStringAux_through (pred : Char → Bool) (iw : Bool) :
    ∀ (s : List Char) (ys acc : List Char) (g : Nat),
      (∀ c ∈ s, ¬ c = quoteChar ∧ pred c = true) →
      readStringAux (s.length + g) pred iw (true, s ++ ys) acc
        = readStringAux g pred iw (true, ys) (acc ++ s) := by
  intro s
  induction s with
  | nil =>
    intro ys acc g hs
    simp only [List.length_nil, Nat.zero_add, List.nil_append, List.append_nil]
  | cons c s' ih =>
    intro ys acc g hs
    obtain ⟨hcq, hcp⟩ := hs c (by simp)
    rw [List.length_cons, Nat.add_right_comm]
    rw [readStringAux_char (s'.length + g) pred iw (true, (c :: s') ++ ys) acc c true
      (s' ++ ys) (tokNext_inStr c (s' ++ ys) hcq) hcp]
    rw [ih ys (acc ++ [c]) g (fun d hd => hs d (by simp [hd]))]
    simp

/-- C7 (counterexample): the plain reader does not treat a quoted string as
opaque — a `;` inside the quotes terminates the entry, truncating the stored
definition, and the rest of the string derails the parse. -/
theorem C7_counterexample :
    plainRun "ISO-10303-21; DATA; #1=\'a;b\'; ENDSEC;"
        = ([⟨1, "\'a"⟩], some (.unexpectedIdentifier "b")) ∧
      "\'a" ≠ "\'a;b\'" := ⟨rfl, by decide⟩

theorem plainReadAll_two (st : Bool × List Char) (e : StepEntry) (f : Nat)
    (h : plainReadNext st = .ok (some e, (false, " ENDSEC;".data))) :
    plainReadAllAux (f + 2) st = ([e], none) := by
  conv_lhs => unfold plainReadAllAux
  rw [h]
  rfl

/-- C7 (amended): the active logos reader treats a single-quoted span as
opaque for every quote-free content — including contents with `;`, `#`,
`/*`, `*/` — and stores it verbatim; the plain reader does the same only
when the content contains no `;`. -/
theorem C7_theorem (s : List Char) (hq : ∀ c ∈ s, ¬ c = quoteChar) :
    logosRun (String.mk ("ISO-10303-21; DATA; #1=".data ++ [quoteChar] ++ s
        ++ [quoteChar] ++ "; ENDSEC;".data))
      = ([⟨1, String.mk (quoteChar :: (s ++ [quoteChar]))⟩], none) ∧
    (';' ∉ s →
      plainRun (String.mk ("ISO-10303-21; DATA; #1=".data ++ [quoteChar] ++ s
          ++ [quoteChar] ++ "; ENDSEC;".data))
        = ([⟨1, String.mk (quoteChar :: (s ++ [quoteChar]))⟩], none)) := by
  rw [show String.mk ("ISO-10303-21; DATA; #1=".data ++ [quoteChar] ++ s ++ [quoteChar]
      ++ "; ENDSEC;".data)
    = String.mk ("ISO-10303-21; DATA; #1=".data ++ (quoteChar :: (s
      ++ (quoteChar :: "; ENDSEC;".data)))) from congrArg String.mk (by simp)]
  constructor
  · -- logos half
    have g9 : lexList ("; ENDSEC;".data) = [LTok.sem, LTok.endsec, LTok.sem] := rfl
    have harr : (quoteChar :: (s ++ [quoteChar])) ++ "; ENDSEC;".data
        = quoteChar :: (s ++ (quoteChar :: "; ENDSEC;".data)) := by
      simp
    have g8 : lexList (quoteChar :: (s ++ (quoteChar :: "; ENDSEC;".data)))
        = [LTok.str (String.mk s), LTok.sem, LTok.endsec, LTok.sem] := by
      rw [← harr]
      have hlex : lexOne ((quoteChar :: (s ++ [quoteChar])) ++ "; ENDSEC;".data)
          = some (LTok.str (String.mk s), (quoteChar :: (s ++ [quoteChar])).length) := by
        rw [harr, show (quoteChar :: (s ++ [quoteChar])).length = s.length + 2 from by simp]
        exact lexOne_string s ("; ENDSEC;".data) hq
      rw [lexList_step_tok (quoteChar :: (s ++ [quoteChar])) ("; ENDSEC;".data)
        (LTok.str (String.mk s)) (by simp) hlex rfl, g9]
    have g7 : lexList (['='] ++ (quoteChar :: (s ++ (quoteChar :: "; ENDSEC;".data))))
        = [LTok.eq, LTok.str (String.mk s), LTok.sem, LTok.endsec, LTok.sem] := by
      rw [lexList_step_tok ['='] (quoteChar :: (s ++ (quoteChar :: "; ENDSEC;".data)))
        LTok.eq (by decide)
        (lexOne_eq_char (quoteChar :: (s ++ (quoteChar :: "; ENDSEC;".data)))) rfl, g8]
    have g6 : lexList ("#1".data ++ (['='] ++ (quoteChar :: (s
          ++ (quoteChar :: "; ENDSEC;".data)))))
        = [LTok.reference 1, LTok.eq, LTok.str (String.mk s), LTok.sem, LTok.endsec,
            LTok.sem] := by
      rw [lexList_step_tok "#1".data (['='] ++ (quoteChar :: (s
        ++ (quoteChar :: "; ENDSEC;".data)))) (LTok.reference 1) (by decide) rfl rfl, g7]
    have g5 : lexList ([' '] ++ ("#1".data ++ (['='] ++ (quoteChar :: (s
          ++ (quoteChar :: "; ENDSEC;".data))))))
        = [LTok.reference 1, LTok.eq, LTok.str (String.mk s), LTok.sem, LTok.endsec,
            LTok.sem] := by
      rw [lexList_step_skip [' '] ("#1".data ++ (['='] ++ (quoteChar :: (s
        ++ (quoteChar :: "; ENDSEC;".data))))) LTok.whitespace (by decide) rfl rfl, g6]
    have g4 : lexList ([';'] ++ ([' '] ++ ("#1".data ++ (['='] ++ (quoteChar :: (s
          ++ (quoteChar :: "; ENDSEC;".data)))))))
        = [LTok.sem, LTok.reference 1, LTok.eq, LTok.str (String.mk s), LTok.sem,
            LTok.endsec, LTok.sem] := by
      rw [lexList_step_tok [';'] ([' '] ++ ("#1".data ++ (['='] ++ (quoteChar :: (s
        ++ (quoteChar :: "; ENDSEC;".data)))))) LTok.sem (by decide) rfl rfl, g5]
    have g3 : lexList ("DATA".data ++ ([';'] ++ ([' '] ++ ("#1".data ++ (['='] ++
          (quoteChar :: (s ++ (quoteChar :: "; ENDSEC;".data))))))))
        = [LTok.data, LTok.sem, LTok.reference 1, LTok.eq, LTok.str (String.mk s),
            LTok.sem, LTok.endsec, LTok.sem] := by
      rw [lexList_step_tok "DATA".data ([';'] ++ ([' '] ++ ("#1".data ++ (['='] ++
        (quoteChar :: (s ++ (quoteChar :: "; ENDSEC;".data))))))) LTok.data
        (by decide) rfl rfl, g4]
    have g2 : lexList ([' '] ++ ("DATA".data ++ ([';'] ++ ([' '] ++ ("#1".data
          ++ (['='] ++ (quoteChar :: (s ++ (quoteChar :: "; ENDSEC;".data)))))))))
        = [LTok.data, LTok.sem, LTok.reference 1, LTok.eq, LTok.str (String.mk s),
            LTok.sem, LTok.endsec, LTok.sem] := by
      rw [lexList_step_skip [' '] ("DATA".data ++ ([';'] ++ ([' '] ++ ("#1".data
        ++ (['='] ++ (quoteChar :: (s ++ (quoteChar :: "; ENDSEC;".data)))))))) 
        LTok.whitespace (by decide) rfl rfl, g3]
    have g1 : lexList ([';'] ++ ([' '] ++ ("DATA".data ++ ([';'] ++ ([' ']
          ++ ("#1".data ++ (['='] ++ (quoteChar :: (s
          ++ (quoteChar :: "; ENDSEC;".data))))))))))
        = [LTok.sem, LTok.data, LTok.sem, LTok.reference 1, LTok.eq,
            LTok.str (String.mk s), LTok.sem, LTok.endsec, LTok.sem] := by
      rw [lexList_step_tok [';'] ([' '] ++ ("DATA".data ++ ([';'] ++ ([' ']
        ++ ("#1".data ++ (['='] ++ (quoteChar :: (s
        ++ (quoteChar :: "; ENDSEC;".data))))))))) LTok.sem (by decide) rfl rfl, g2]
    have g0 : lexList ("ISO-10303-21".data ++ ([';'] ++ ([' '] ++ ("DATA".data
          ++ ([';'] ++ ([' '] ++ ("#1".data ++ (['='] ++ (quoteChar :: (s
          ++ (quoteChar :: "; ENDSEC;".data)))))))))))
        = [LTok.startTag, LTok.sem, LTok.data, LTok.sem, LTok.reference 1, LTok.eq,
            LTok.str (String.mk s), LTok.sem, LTok.endsec, LTok.sem] := by
      rw [lexList_step_tok "ISO-10303-21".data ([';'] ++ ([' '] ++ ("DATA".data
        ++ ([';'] ++ ([' '] ++ ("#1".data ++ (['='] ++ (quoteChar :: (s
        ++ (quoteChar :: "; ENDSEC;".data)))))))))) LTok.startTag (by decide)
        rfl rfl, g1]
    have gtoks : lexList ("ISO-10303-21; DATA; #1=".data ++ (quoteChar :: (s
          ++ (quoteChar :: "; ENDSEC;".data))))
        = [LTok.startTag, LTok.sem, LTok.data, LTok.sem, LTok.reference 1, LTok.eq,
            LTok.str (String.mk s), LTok.sem, LTok.endsec, LTok.sem] := g0
    unfold logosRun logosNew
    conv_lhs => rw [show (String.mk ("ISO-10303-21; DATA; #1=".data ++ (quoteChar :: (s
      ++ (quoteChar :: "; ENDSEC;".data))))).data = "ISO-10303-21; DATA; #1=".data
      ++ (quoteChar :: (s ++ (quoteChar :: "; ENDSEC;".data))) from rfl]
    rw [gtoks]
    rfl
  · -- plain half
    intro hsemi
    have hs' : ∀ c ∈ s, ¬ c = quoteChar ∧ (!(c == ';')) = true := by
      intro c hc
      refine ⟨hq c hc, ?_⟩
      simp only [Bool.not_eq_true', beq_eq_false_iff_ne, ne_eq]
      intro he
      exact hsemi (he ▸ hc)
    have hreadstr : readStr (fun c => !(c == ';')) true
        (false, quoteChar :: (s ++ (quoteChar :: "; ENDSEC;".data)))
        = .ok (quoteChar :: (s ++ [quoteChar]), (false, "; ENDSEC;".data)) := by
      unfold readStr
      rw [readStringAux_char ((quoteChar :: (s ++ (quoteChar :: "; ENDSEC;".data))).length)
        (fun c => !(c == ';')) true
        (false, quoteChar :: (s ++ (quoteChar :: "; ENDSEC;".data))) [] quoteChar true
        (s ++ (quoteChar :: "; ENDSEC;".data)) rfl rfl]
      rw [show (quoteChar :: (s ++ (quoteChar :: "; ENDSEC;".data))).length
          = s.length + 11 from by simp]
      rw [readStringAux_through (fun c => !(c == ';')) true s
        (quoteChar :: "; ENDSEC;".data) ([] ++ [quoteChar]) 11 hs']
      show readStringAux 11 _ true (true, quoteChar :: "; ENDSEC;".data)
        (([] ++ [quoteChar]) ++ s) = _
      rw [readStringAux_char 10 (fun c => !(c == ';')) true
        (true, quoteChar :: "; ENDSEC;".data) (([] ++ [quoteChar]) ++ s) quoteChar false
        ("; ENDSEC;".data) rfl rfl]
      rfl
    have hentry : plainReadNext (false, ' ' :: '#' :: '1' :: '=' :: quoteChar
          :: (s ++ (quoteChar :: "; ENDSEC;".data)))
        = .ok (some ⟨1, String.mk (quoteChar :: (s ++ [quoteChar]))⟩,
            (false, " ENDSEC;".data)) := by
      rw [show plainReadNext (false, ' ' :: '#' :: '1' :: '=' :: quoteChar
            :: (s ++ (quoteChar :: "; ENDSEC;".data)))
          = (match readStr (fun c => !(c == ';')) true
              (false, quoteChar :: (s ++ (quoteChar :: "; ENDSEC;".data))) with
             | .error e => .error e
             | .ok (d, st) =>
               match readExactSeq [';'] st with
               | .error e => .error e
               | .ok st => .ok (some ⟨1, String.mk d⟩, st)) from rfl]
      rw [hreadstr]
      rfl
    have hnew : plainNew ("ISO-10303-21; DATA; #1=".data ++ (quoteChar :: (s
          ++ (quoteChar :: "; ENDSEC;".data))))
        = .ok (false, ' ' :: '#' :: '1' :: '=' :: quoteChar
            :: (s ++ (quoteChar :: "; ENDSEC;".data))) := rfl
    unfold plainRun
    conv_lhs => rw [show (String.mk ("ISO-10303-21; DATA; #1=".data ++ (quoteChar :: (s
      ++ (quoteChar :: "; ENDSEC;".data))))).data = "ISO-10303-21; DATA; #1=".data
      ++ (quoteChar :: (s ++ (quoteChar :: "; ENDSEC;".data))) from rfl]
    rw [hnew]
    exact plainReadAll_two _ _ ((s ++ (quoteChar :: "; ENDSEC;".data)).length + 4) hentry

/-- C7 (witness): the amended statement on the content `a b /* x */ #5`. -/
theorem C7_witness :
    (∀ c ∈ ("a b /* x */ #5".data), ¬ c = quoteChar) ∧
    (logosRun (String.mk ("ISO-10303-21; DATA; #1=".data ++ [quoteChar]
        ++ "a b /* x */ #5".data ++ [quoteChar] ++ "; ENDSEC;".data))
      = ([⟨1, String.mk (quoteChar :: ("a b /* x */ #5".data ++ [quoteChar]))⟩], none) ∧
    (';' ∉ ("a b /* x */ #5".data) →
      plainRun (String.mk ("ISO-10303-21; DATA; #1=".data ++ [quoteChar]
          ++ "a b /* x */ #5".data ++ [quoteChar] ++ "; ENDSEC;".data))
        = ([⟨1, String.mk (quoteChar :: ("a b /* x */ #5".data ++ [quoteChar]))⟩], none))) :=
  ⟨by decide, C7_theorem ("a b /* x */ #5".data) (by decide)⟩

/-! ### C8: missing DATA section -/

theorem alpha_not_lws (c : Char) (h : asciiAlpha c = true) : logosWsChar c = false := by
  cases hl : logosWsChar c with
  | false => rfl
  | true => exact absurd (lws_rustWs c hl) (by simp [alpha_rustWs c h])

theorem tokNext_plainChar (c : Char) (rest : List Char) (hq : ¬ c = quoteChar)
    (hw : rustIsWhitespace c = false) (hs : ¬ c = '/') :
    tokNext false (c :: rest) = .ok (some (PTok.character c, false, rest)) := by
  unfold tokNext
  dsimp only
  rw [if_neg hq, if_neg (by simp), if_neg (by simp [hw]), if_neg hs]

theorem skipWsToks_char (f : Nat) (st : Bool × List Char) (c : Char) (b : Bool)
    (rest : List Char) (h : tokNext st.1 st.2 = .ok (some (PTok.character c, b, rest))) :
    skipWsToks (f + 1) st = st := by
  conv_lhs => unfold skipWsToks
  rw [h]

theorem skipWsToks_ws (f : Nat) (st : Bool × List Char) (b : Bool) (rest : List Char)
    (h : tokNext st.1 st.2 = .ok (some (PTok.whitespace, b, rest))) :
    skipWsToks (f + 1) st = skipWsToks f (b, rest) := by
  conv_lhs => unfold skipWsToks
  rw [h]

/-- `read_string` passes over out-of-string ordinary characters that satisfy
the predicate. -/
theorem readStringAux_plainChars (pred : Char → Bool) (iw : Bool) :
    ∀ (s : List Char) (ys acc : List Char) (g : Nat),
      (∀ c ∈ s, ¬ c = quoteChar ∧ rustIsWhitespace c = false ∧ ¬ c = '/'
        ∧ pred c = true) →
      readStringAux (s.length + g) pred iw (false, s ++ ys) acc
        = readStringAux g pred iw (false, ys) (acc ++ s) := by
  intro s
  induction s with
  | nil =>
    intro ys acc g hs
    simp only [List.length_nil, Nat.zero_add, List.nil_append, List.append_nil]
  | cons c s' ih =>
    intro ys acc g hs
    obtain ⟨hcq, hcw, hcs, hcp⟩ := hs c (by simp)
    rw [List.length_cons, Nat.add_right_comm]
    rw [readStringAux_char (s'.length + g) pred iw (false, (c :: s') ++ ys) acc c false
      (s' ++ ys) (tokNext_plainChar c (s' ++ ys) hcq hcw hcs) hcp]
    rw [ih ys (acc ++ [c]) g (fun d hd => hs d (by simp [hd]))]
    simp

theorem readStringAux_plainAll (pred : Char → Bool) (iw : Bool) (s acc : List Char)
    (g : Nat) (hs : ∀ c ∈ s, ¬ c = quoteChar ∧ rustIsWhitespace c = false
      ∧ ¬ c = '/' ∧ pred c = true) :
    readStringAux (s.length + g) pred iw (false, s) acc
      = readStringAux g pred iw (false, ([] : List Char)) (acc ++ s) := by
  conv_lhs => rw [show ((false, s) : Bool × List Char) = (false, s ++ []) from by simp]
  exact readStringAux_plainChars pred iw s [] acc g hs

theorem plainFindAux_notdata (f : Nat) (st₀ : Bool × List Char) (idw : List Char)
    (st₁ : Bool × List Char)
    (hread : readStr asciiAlpha false (pstateSkipWs st₀) = .ok (idw, st₁))
    (hnd : ¬ idw = "DATA".data)
    (hne : ¬ ((skipUntilCount (st₁.2.length + 1) (fun c => !asciiAlpha c) st₁ 0).1 = 0
      ∧ idw = [])) :
    plainFindAux (f + 1) st₀
      = plainFindAux f (skipUntilCount (st₁.2.length + 1) (fun c => !asciiAlpha c) st₁ 0).2 := by
  conv_lhs => unfold plainFindAux
  dsimp only
  rw [hread]
  dsimp only
  rw [if_neg hnd, if_neg hne]

theorem plainFindAux_empty (f : Nat) :
    plainFindAux (f + 1) (false, ([] : List Char)) = .error .noDataSection := by
  conv_lhs => unfold plainFindAux
  rfl

/-- C8 (counterexample): a valid prolog with a `HEADER` section but no `DATA`
section makes the plain reader fail with `NoDataSection`, but the active
logos reader fails with `EndOfInput` because `parse_element` turns every
parser failure into a buffer-grow that hits the end of the input. -/
theorem C8_counterexample :
    plainRun "ISO-10303-21; HEADER;" = ([], some .noDataSection) ∧
    logosRun "ISO-10303-21; HEADER;" = ([], some .endOfInput) ∧
    PErr.endOfInput ≠ PErr.noDataSection :=
  ⟨rfl, rfl, by decide⟩

/-- C8 (amended): for a prolog followed by a single non-`DATA` alphabetic
word and nothing else, the plain reader reports `NoDataSection` while the
active logos reader reports `EndOfInput`. -/
theorem C8_theorem (w : List Char) (hne : w ≠ [])
    (halpha : ∀ c ∈ w, asciiAlpha c = true) (hkw : ∀ p ∈ kwList, w ≠ p.1) :
    plainRun (String.mk ("ISO-10303-21; ".data ++ w)) = ([], some .noDataSection) ∧
    logosRun (String.mk ("ISO-10303-21; ".data ++ w)) = ([], some .endOfInput) := by
  have hheadalpha : ∀ c, w.head? = some c → asciiAlpha c = true := by
    intro c hc
    cases w with
    | nil => simp at hc
    | cons d rest =>
      obtain rfl : d = c := by simpa using hc
      exact halpha d (by simp)
  have hbw : bodyWord w := by
    refine ⟨hne, fun c hc => alpha_defChar c (halpha c hc), ?_, hkw⟩
    intro hh
    exact absurd (hheadalpha '#' hh) (by decide)
  constructor
  · -- plain half
    have hskip : pstateSkipWs (false, ' ' :: w) = (false, w) := by
      unfold pstateSkipWs
      rw [show (((false, ' ' :: w) : Bool × List Char)).2.length + 1 = (w.length + 1) + 1
        from by simp]
      rw [skipWsToks_ws (w.length + 1) (false, ' ' :: w) false
        (w.dropWhile rustIsWhitespace) rfl]
      rw [dropWhile_head_false _ w (fun c hc => alpha_rustWs c (hheadalpha c hc))]
      cases w with
      | nil => exact absurd rfl hne
      | cons c rest =>
        have ha := halpha c (by simp)
        exact skipWsToks_char (c :: rest).length (false, c :: rest) c false rest
          (tokNext_plainChar c rest (fun he => absurd (he ▸ ha) (by decide))
            (alpha_rustWs c ha) (fun he => absurd (he ▸ ha) (by decide)))
    have hrs : readStr asciiAlpha false (false, w) = .ok (w, (false, [])) := by
      unfold readStr
      rw [readStringAux_plainAll asciiAlpha false w [] 1
        (fun c hc => ⟨fun he => absurd (he ▸ halpha c hc) (by decide),
          alpha_rustWs c (halpha c hc),
          fun he => absurd (he ▸ halpha c hc) (by decide), halpha c hc⟩)]
      rfl
    have hfind : plainFindAux ((w.length + 2) + 1) (false, ' ' :: w)
        = .error .noDataSection := by
      rw [plainFindAux_notdata (w.length + 2) (false, ' ' :: w) w (false, [])
        (by rw [hskip]; exact hrs)
        (hkw ("DATA".data, LTok.data) (by simp [kwList]))
        (by
          rw [show (skipUntilCount ((((false, ([] : List Char)) : Bool × List Char)).2.length + 1)
            (fun c => !asciiAlpha c) (false, []) 0) = (0, (false, [])) from rfl]
          simp [hne])]
      rw [show (skipUntilCount ((((false, ([] : List Char)) : Bool × List Char)).2.length + 1)
        (fun c => !asciiAlpha c) (false, []) 0) = (0, (false, [])) from rfl]
      rw [show w.length + 2 = (w.length + 1) + 1 from rfl]
      exact plainFindAux_empty (w.length + 1)
    have hnew : plainNew ("ISO-10303-21; ".data ++ w) = .error .noDataSection := by
      rw [show plainNew ("ISO-10303-21; ".data ++ w)
          = plainFindAux ((' ' :: w).length + 2) (false, ' ' :: w) from rfl]
      rw [show (' ' :: w).length + 2 = (w.length + 2) + 1 from by simp]
      exact hfind
    unfold plainRun
    conv_lhs => rw [show (String.mk ("ISO-10303-21; ".data ++ w)).data
      = "ISO-10303-21; ".data ++ w from rfl]
    rw [hnew]
  · -- logos half
    have gw : lexList (w ++ []) = [LTok.defn (String.mk w)] := by
      rw [lexList_step_tok w [] (LTok.defn (String.mk w)) hne
        (lexOne_word w [] hbw (by intro c hc; simp at hc)) rfl]
      rfl
    have gw' : lexList w = [LTok.defn (String.mk w)] := by
      rwa [List.append_nil] at gw
    have htw0 : List.takeWhile logosWsChar w = [] :=
      takeWhile_head_false _ w (fun c hc => alpha_not_lws c (hheadalpha c hc))
    have gsp : lexList ([' '] ++ w) = [LTok.defn (String.mk w)] := by
      have hlx : lexOne ([' '] ++ w)
          = some (LTok.whitespace, ([' '] : List Char).length) := by
        rw [show ([' '] ++ w : List Char) = ' ' :: w from rfl, lexOne_ws ' ' w (by decide)]
        rw [show List.takeWhile logosWsChar (' ' :: w) = ' ' :: List.takeWhile logosWsChar w
          from by rw [List.takeWhile_cons, if_pos (by decide)], htw0]
      rw [lexList_step_skip [' '] w LTok.whitespace (by decide) hlx rfl, gw']
    have gsem : lexList ([';'] ++ ([' '] ++ w))
        = [LTok.sem, LTok.defn (String.mk w)] := by
      rw [lexList_step_tok [';'] ([' '] ++ w) LTok.sem (by decide) rfl rfl, gsp]
    have giso : lexList ("ISO-10303-21".data ++ ([';'] ++ ([' '] ++ w)))
        = [LTok.startTag, LTok.sem, LTok.defn (String.mk w)] := by
      rw [lexList_step_tok "ISO-10303-21".data ([';'] ++ ([' '] ++ w)) LTok.startTag
        (by decide) rfl rfl, gsem]
    have gtoks : lexList ("ISO-10303-21; ".data ++ w)
        = [LTok.startTag, LTok.sem, LTok.defn (String.mk w)] := giso
    unfold logosRun logosNew
    conv_lhs => rw [show (String.mk ("ISO-10303-21; ".data ++ w)).data
      = "ISO-10303-21; ".data ++ w from rfl]
    rw [gtoks]
    rfl

/-- C8 (witness): the amended statement at the word `HEADERS`. -/
theorem C8_witness :
    plainRun (String.mk ("ISO-10303-21; ".data ++ "HEADERS".data))
        = ([], some .noDataSection) ∧
    logosRun (String.mk ("ISO-10303-21; ".data ++ "HEADERS".data))
        = ([], some .endOfInput) :=
  C8_theorem ("HEADERS".data) (by decide) (by decide) (by decide)

end StepMerger
